import Mathlib

/-!
Verification of the `kvfifo` container (src/kvfifo.h).

The container stores a FIFO queue of key/value pairs (`pair_list`, a
`std::list<std::pair<K const, V>>`) together with a per-key index
(`iterator_list_map`, a `std::map<K, std::list<iterator>>`) mapping each
present key to the list of queue iterators of the entries holding that key,
in queue order.  Instances share a `container_t` cell through a
`shared_ptr` with copy-on-write (`aboutToModify`), a pinning flag
(`unshareable`) set by the mutable accessors, and a rollback guard
(`copy_guard_t`) restoring the pointer and the flag on exception.

The shallow embedding below gives every queue entry a stable numeric id:
an id plays the role of a `std::list` iterator (stable under insertion and
erasure elsewhere), so a bucket of the key index is a list of ids.
-/

deriving instance DecidableEq for Except

namespace Kvfifo

/-- Error kinds of the spec's taxonomy: `std::invalid_argument("Empty queue")`,
`std::invalid_argument("Key not found")`, and `std::bad_alloc`. -/
inductive Err where
  | emptyCollection
  | keyNotFound
  | resourceExhaustion
deriving DecidableEq, Repr

/-- One queue entry: a stable id (modelling the `std::list` iterator that
the key index stores), the immutable key and the value. -/
structure Entry (K V : Type) where
  id : Nat
  key : K
  val : V
deriving DecidableEq, Repr

/-- The `container_t` of the source: the queue `pair_list`, the key index
`iterator_list_map` as a key-sorted association list of buckets of entry
ids, and the next fresh id (modelling allocation of new list nodes). -/
structure Container (K V : Type) where
  pair_list : List (Entry K V)
  iterator_list_map : List (K × List Nat)
  nextId : Nat
deriving DecidableEq, Repr

variable {K V : Type}

variable [DecidableEq K]

/-- `iterator_list_map.find(k)`: first bucket whose key is `k`. -/
def lookupB : List (K × List Nat) → K → Option (List Nat)
  | [], _ => none
  | (k', b) :: rest, k => if k = k' then some b else lookupB rest k

variable [LinearOrder K]

/-- `std::map` insertion used by `push` (lines 54-65): if the key is absent
a fresh singleton bucket is inserted at its sorted position, otherwise the
new reference is appended at the back of the existing bucket. -/
def insertRef : List (K × List Nat) → K → Nat → List (K × List Nat)
  | [], k, r => [(k, [r])]
  | (k', b) :: rest, k, r =>
    if k < k' then (k, [r]) :: (k', b) :: rest
    else if k = k' then (k', b ++ [r]) :: rest
    else (k', b) :: insertRef rest k r

/-- `it->second.pop_front()` followed by `erase` of the bucket when it became
empty (lines 83-87 and 108-112).  A bucket found empty cannot arise from the
source (invariant I2); that branch mirrors erasing the bucket. -/
def popFrontRef : List (K × List Nat) → K → List (K × List Nat)
  | [], _ => []
  | (k', b) :: rest, k =>
    if k = k' then
      match b with
      | [] => rest
      | [_] => rest
      | _ :: t => (k', t) :: rest
    else (k', b) :: popFrontRef rest k

/-- A default-constructed `container_t`: empty queue, empty index. -/
def emptyC : Container K V := ⟨[], [], 0⟩

/-- Key/value projection of the queue, i.e. what iterating `pair_list`
shows to a caller. -/
def toPairs (c : Container K V) : List (K × V) :=
  c.pair_list.map (fun e => (e.key, e.val))

/-- Entries of the queue currently holding key `k`, in queue order. -/
def keyEntries (c : Container K V) (k : K) : List (Entry K V) :=
  c.pair_list.filter (fun e => e.key = k)

/-- `push(k, v)` (lines 46-72), successful path: appends the entry at the
back of the queue and its reference at the back of `k`'s bucket. -/
def pushC (k : K) (v : V) (c : Container K V) : Container K V :=
  { pair_list := c.pair_list ++ [⟨c.nextId, k, v⟩]
    iterator_list_map := insertRef c.iterator_list_map k c.nextId
    nextId := c.nextId + 1 }

/-- Body of `pop()` (lines 74-92) after the emptiness check: drops the
front reference of the front entry's bucket and the front entry. -/
def popC (c : Container K V) : Container K V :=
  match c.pair_list with
  | [] => c
  | e :: rest =>
    { pair_list := rest
      iterator_list_map := popFrontRef c.iterator_list_map e.key
      nextId := c.nextId }

/-- Body of `pop(k)` (lines 94-116) after the emptiness and key checks:
erases the queue entry referenced by the bucket's front reference, then
pops that reference.  The missing-bucket and empty-bucket branches are
unreachable from the source (checked by the caller / invariant I2). -/
def popKeyC (c : Container K V) (k : K) : Container K V :=
  match lookupB c.iterator_list_map k with
  | none => c
  | some [] => c
  | some (r :: _) =>
    { pair_list := c.pair_list.filter (fun e => e.id ≠ r)
      iterator_list_map := popFrontRef c.iterator_list_map k
      nextId := c.nextId }

/-- `pair_list.splice(pair_list.end(), pair_list, it)` (line 133): the node
with id `r` is moved to the back of the queue; every other node keeps its
relative position. -/
def spliceToEnd (l : List (Entry K V)) (r : Nat) : List (Entry K V) :=
  l.filter (fun e => e.id ≠ r) ++ l.filter (fun e => e.id = r)

/-- Body of `move_to_back(k)` (lines 118-137) after the checks: splices the
entry of each reference of `k`'s bucket, in bucket order, to the back of
the queue.  The key index is not modified (iterators stay valid). -/
def moveToBackC (c : Container K V) (k : K) : Container K V :=
  match lookupB c.iterator_list_map k with
  | none => c
  | some b =>
    { pair_list := b.foldl spliceToEnd c.pair_list
      iterator_list_map := c.iterator_list_map
      nextId := c.nextId }

/-- `clear()` body (lines 282-283). -/
def clearC (c : Container K V) : Container K V :=
  { pair_list := [], iterator_list_map := [], nextId := c.nextId }

/-- `size()` (lines 244-250). -/
def sizeC (c : Container K V) : Nat := c.pair_list.length

/-- `empty()` (lines 252-258). -/
def emptyQ (c : Container K V) : Bool := c.pair_list.isEmpty

/-- `count(k)` (lines 260-272): the bucket's size, `0` when absent. -/
def countC (c : Container K V) (k : K) : Nat :=
  match lookupB c.iterator_list_map k with
  | none => 0
  | some b => b.length

/-- The key sequence produced by iterating `k_begin()`…`k_end()`
(lines 341-355): the keys of the `std::map`, in map order. -/
def keysC (c : Container K V) : List K :=
  c.iterator_list_map.map Prod.fst

/-- Entry lookup by reference: dereferencing a stored iterator. -/
def findEntry (l : List (Entry K V)) (r : Nat) : Option (Entry K V) :=
  l.find? (fun e => e.id = r)

/-- `pop()` with its emptiness check (lines 74-77). -/
def popE (c : Container K V) : Except Err (Container K V) :=
  if c.pair_list.isEmpty then .error .emptyCollection else .ok (popC c)

/-- `pop(k)` with its checks (lines 94-105): empty queue and missing key
both raise "Key not found". -/
def popKeyE (c : Container K V) (k : K) : Except Err (Container K V) :=
  if c.pair_list.isEmpty then .error .keyNotFound
  else match lookupB c.iterator_list_map k with
    | none => .error .keyNotFound
    | some _ => .ok (popKeyC c k)

/-- `move_to_back(k)` with its checks (lines 118-130). -/
def moveToBackE (c : Container K V) (k : K) : Except Err (Container K V) :=
  if c.pair_list.isEmpty then .error .keyNotFound
  else match lookupB c.iterator_list_map k with
    | none => .error .keyNotFound
    | some _ => .ok (moveToBackC c k)

/-- `front()` (lines 139-145). -/
def frontE (c : Container K V) : Except Err (K × V) :=
  match c.pair_list with
  | [] => .error .emptyCollection
  | e :: _ => .ok (e.key, e.val)

/-- `back()` (lines 159-165). -/
def backE (c : Container K V) : Except Err (K × V) :=
  match c.pair_list.getLast? with
  | none => .error .emptyCollection
  | some e => .ok (e.key, e.val)

/-- `first(k)` (lines 180-192): dereferences the bucket's front reference.
The fallbacks after the two checks are unreachable under the invariant. -/
def firstE (c : Container K V) (k : K) : Except Err (K × V) :=
  if c.pair_list.isEmpty then .error .keyNotFound
  else match lookupB c.iterator_list_map k with
    | none => .error .keyNotFound
    | some b =>
      match b.head? >>= findEntry c.pair_list with
      | none => .error .keyNotFound
      | some e => .ok (e.key, e.val)

/-- `last(k)` (lines 212-224): dereferences the bucket's back reference. -/
def lastE (c : Container K V) (k : K) : Except Err (K × V) :=
  if c.pair_list.isEmpty then .error .keyNotFound
  else match lookupB c.iterator_list_map k with
    | none => .error .keyNotFound
    | some b =>
      match b.getLast? >>= findEntry c.pair_list with
      | none => .error .keyNotFound
      | some e => .ok (e.key, e.val)

/-- Overwriting the value of the front entry through the reference returned
by the mutable `front()` (line 156). -/
def writeFrontC (c : Container K V) (v : V) : Container K V :=
  match c.pair_list with
  | [] => c
  | e :: rest => { c with pair_list := { e with val := v } :: rest }

/-- Overwriting the value of the back entry through the reference returned
by the mutable `back()` (line 176). -/
def writeBackC (c : Container K V) (v : V) : Container K V :=
  match c.pair_list.getLast? with
  | none => c
  | some e =>
    { c with pair_list := c.pair_list.dropLast ++ [{ e with val := v }] }

/-- The structural invariant of a `container_t` (spec invariants I1-I3 plus
the well-formedness of the id allocation):
sorted map keys, every bucket is exactly the id list of that key's queue
entries (in queue order) and is non-empty, every present key has a bucket,
ids are pairwise distinct and below `nextId`. -/
def Inv (c : Container K V) : Prop :=
  (c.iterator_list_map.map Prod.fst).Pairwise (· < ·) ∧
  (∀ p ∈ c.iterator_list_map,
      p.2 = (keyEntries c p.1).map Entry.id ∧ p.2 ≠ []) ∧
  (∀ e ∈ c.pair_list, (lookupB c.iterator_list_map e.key).isSome) ∧
  (c.pair_list.map Entry.id).Nodup ∧
  (∀ e ∈ c.pair_list, e.id < c.nextId)

instance (c : Container Nat Nat) : Decidable (Inv c) := by
  unfold Inv
  infer_instance

/-! ### Lemmas about the key index (sorted association list) -/

theorem lookupB_eq_none {m : List (K × List Nat)} {k : K} :
    lookupB m k = none ↔ k ∉ m.map Prod.fst := by
  induction m with
  | nil => simp [lookupB]
  | cons p rest ih =>
    obtain ⟨k', b⟩ := p
    by_cases h : k = k' <;> simp [lookupB, h, ih]

theorem mem_of_lookupB {m : List (K × List Nat)} {k : K} {b : List Nat}
    (h : lookupB m k = some b) : (k, b) ∈ m := by
  induction m with
  | nil => simp [lookupB] at h
  | cons p rest ih =>
    obtain ⟨k', b'⟩ := p
    by_cases hk : k = k'
    · subst hk
      simp [lookupB] at h
      simp [h]
    · simp [lookupB, hk] at h
      exact List.mem_cons_of_mem _ (ih h)

theorem lookupB_isSome {m : List (K × List Nat)} {k : K} :
    (lookupB m k).isSome ↔ k ∈ m.map Prod.fst := by
  rcases h : lookupB m k with _ | b
  · simpa [h] using lookupB_eq_none.1 h
  · simp only [h, Option.isSome_some, true_iff]
    have := mem_of_lookupB h
    exact List.mem_map.2 ⟨(k, b), this, rfl⟩

theorem insertRef_nil (k : K) (r : Nat) : insertRef [] k r = [(k, [r])] := rfl

theorem insertRef_cons_lt {k k₀ : K} (hlt : k < k₀) (b₀ : List Nat)
    (rest : List (K × List Nat)) (r : Nat) :
    insertRef ((k₀, b₀) :: rest) k r = (k, [r]) :: (k₀, b₀) :: rest := by
  simp [insertRef, hlt]

theorem insertRef_cons_self (k : K) (b₀ : List Nat)
    (rest : List (K × List Nat)) (r : Nat) :
    insertRef ((k, b₀) :: rest) k r = (k, b₀ ++ [r]) :: rest := by
  simp [insertRef]

theorem insertRef_cons_gt {k k₀ : K} (hgt : k₀ < k) (b₀ : List Nat)
    (rest : List (K × List Nat)) (r : Nat) :
    insertRef ((k₀, b₀) :: rest) k r = (k₀, b₀) :: insertRef rest k r := by
  simp [insertRef, not_lt_of_gt hgt, ne_of_gt hgt]

theorem popFrontRef_cons_ne {k k₀ : K} (h : ¬ k = k₀) (b₀ : List Nat)
    (rest : List (K × List Nat)) :
    popFrontRef ((k₀, b₀) :: rest) k = (k₀, b₀) :: popFrontRef rest k := by
  simp [popFrontRef, h]

theorem popFrontRef_cons_nil (k : K) (rest : List (K × List Nat)) :
    popFrontRef ((k, []) :: rest) k = rest := by
  simp [popFrontRef]

theorem popFrontRef_cons_one (k : K) (x : Nat) (rest : List (K × List Nat)) :
    popFrontRef ((k, [x]) :: rest) k = rest := by
  simp [popFrontRef]

theorem popFrontRef_cons_more (k : K) (x y : Nat) (t : List Nat)
    (rest : List (K × List Nat)) :
    popFrontRef ((k, x :: y :: t) :: rest) k = (k, y :: t) :: rest := by
  simp [popFrontRef]

theorem mem_keys_insertRef {m : List (K × List Nat)} {k k' : K} {r : Nat} :
    k' ∈ (insertRef m k r).map Prod.fst ↔ k' = k ∨ k' ∈ m.map Prod.fst := by
  induction m with
  | nil => simp [insertRef]
  | cons p rest ih =>
    obtain ⟨k₀, b₀⟩ := p
    rcases lt_trichotomy k k₀ with hlt | heq | hgt
    · rw [insertRef_cons_lt hlt]
      simp only [List.map_cons, List.mem_cons]
    · subst heq
      rw [insertRef_cons_self]
      simp only [List.map_cons, List.mem_cons]
      tauto
    · rw [insertRef_cons_gt hgt]
      simp only [List.map_cons, List.mem_cons, ih]
      tauto

theorem keys_insertRef_pairwise {m : List (K × List Nat)}
    (hs : (m.map Prod.fst).Pairwise (· < ·)) (k : K) (r : Nat) :
    ((insertRef m k r).map Prod.fst).Pairwise (· < ·) := by
  induction m with
  | nil => simp [insertRef]
  | cons p rest ih =>
    obtain ⟨k₀, b₀⟩ := p
    simp only [List.map_cons, List.pairwise_cons] at hs
    obtain ⟨hhead, htail⟩ := hs
    rcases lt_trichotomy k k₀ with hlt | heq | hgt
    · rw [insertRef_cons_lt hlt]
      simp only [List.map_cons, List.pairwise_cons]
      refine ⟨?_, ?_⟩
      · intro a ha
        rcases List.mem_cons.1 ha with h | h
        · exact h ▸ hlt
        · exact lt_trans hlt (hhead a h)
      · exact ⟨hhead, htail⟩
    · subst heq
      rw [insertRef_cons_self]
      simp only [List.map_cons, List.pairwise_cons]
      exact ⟨hhead, htail⟩
    · rw [insertRef_cons_gt hgt]
      simp only [List.map_cons, List.pairwise_cons]
      refine ⟨?_, ih htail⟩
      intro a ha
      rcases mem_keys_insertRef.1 ha with h | h
      · exact h ▸ hgt
      · exact hhead a h

theorem lookupB_insertRef {m : List (K × List Nat)}
    (hs : (m.map Prod.fst).Pairwise (· < ·)) (k : K) (r : Nat) (k' : K) :
    lookupB (insertRef m k r) k' =
      if k' = k then some ((lookupB m k).getD [] ++ [r]) else lookupB m k' := by
  induction m with
  | nil => by_cases h : k' = k <;> simp [insertRef, lookupB, h]
  | cons p rest ih =>
    obtain ⟨k₀, b₀⟩ := p
    simp only [List.map_cons, List.pairwise_cons] at hs
    obtain ⟨hhead, htail⟩ := hs
    rcases lt_trichotomy k k₀ with hlt | heq | hgt
    · have hnone : lookupB ((k₀, b₀) :: rest) k = none := by
        rw [lookupB_eq_none]
        intro hmem
        rcases List.mem_cons.1 hmem with h | h
        · simp only [List.map_cons] at h
          exact absurd (h ▸ hlt) (lt_irrefl k₀)
        · exact absurd (hhead k h) (not_lt_of_gt hlt)
      rw [insertRef_cons_lt hlt]
      by_cases h' : k' = k
      · subst h'
        rw [if_pos rfl, hnone]
        simp [lookupB]
      · simp [lookupB, h']
    · subst heq
      rw [insertRef_cons_self]
      by_cases h' : k' = k
      · subst h'
        simp [lookupB]
      · simp [lookupB, h']
    · have h2 : ¬ k = k₀ := ne_of_gt hgt
      rw [insertRef_cons_gt hgt]
      by_cases h' : k' = k
      · subst h'
        simp only [lookupB, if_neg h2, ih htail, if_pos rfl]
      · by_cases h'' : k' = k₀
        · subst h''
          simp [lookupB, h']
        · simp [lookupB, h'', ih htail, h']

theorem lookupB_popFrontRef_ne {m : List (K × List Nat)} {k k' : K}
    (h : k' ≠ k) : lookupB (popFrontRef m k) k' = lookupB m k' := by
  induction m with
  | nil => simp [popFrontRef]
  | cons p rest ih =>
    obtain ⟨k₀, b₀⟩ := p
    by_cases hk : k = k₀
    · subst hk
      match b₀ with
      | [] => rw [popFrontRef_cons_nil]; simp [lookupB, h]
      | [x] => rw [popFrontRef_cons_one]; simp [lookupB, h]
      | x :: y :: t => rw [popFrontRef_cons_more]; simp [lookupB, h]
    · rw [popFrontRef_cons_ne hk]
      by_cases h'' : k' = k₀ <;> simp [lookupB, h'', ih]

theorem lookupB_popFrontRef_self {m : List (K × List Nat)} {k : K}
    (hnd : (m.map Prod.fst).Nodup) :
    lookupB (popFrontRef m k) k =
      (lookupB m k).bind
        (fun b => if b.tail.isEmpty then none else some b.tail) := by
  induction m with
  | nil => simp [popFrontRef, lookupB]
  | cons p rest ih =>
    obtain ⟨k₀, b₀⟩ := p
    simp only [List.map_cons, List.nodup_cons] at hnd
    obtain ⟨hnotin, hnd'⟩ := hnd
    by_cases hk : k = k₀
    · subst hk
      have hnone : lookupB rest k = none := lookupB_eq_none.2 hnotin
      match b₀ with
      | [] => rw [popFrontRef_cons_nil]; simp [lookupB, hnone]
      | [x] => rw [popFrontRef_cons_one]; simp [lookupB, hnone]
      | x :: y :: t => rw [popFrontRef_cons_more]; simp [lookupB]
    · rw [popFrontRef_cons_ne hk]
      simp [lookupB, hk, ih hnd']

theorem keys_popFrontRef_sublist (m : List (K × List Nat)) (k : K) :
    ((popFrontRef m k).map Prod.fst).Sublist (m.map Prod.fst) := by
  induction m with
  | nil => simp [popFrontRef]
  | cons p rest ih =>
    obtain ⟨k₀, b₀⟩ := p
    by_cases hk : k = k₀
    · subst hk
      match b₀ with
      | [] =>
        rw [popFrontRef_cons_nil]
        exact List.Sublist.cons _ (List.Sublist.refl _)
      | [x] =>
        rw [popFrontRef_cons_one]
        exact List.Sublist.cons _ (List.Sublist.refl _)
      | x :: y :: t =>
        rw [popFrontRef_cons_more]
        simp only [List.map_cons]
        exact List.Sublist.cons₂ _ (List.Sublist.refl _)
    · rw [popFrontRef_cons_ne hk]
      simp only [List.map_cons]
      exact List.Sublist.cons₂ _ ih

/-! ### Lemmas about entry ids -/

theorem entry_eq_of_id {l : List (Entry K V)}
    (hnd : (l.map Entry.id).Nodup) {e e' : Entry K V}
    (he : e ∈ l) (he' : e' ∈ l) (h : e.id = e'.id) : e = e' :=
  List.inj_on_of_nodup_map hnd he he' h

theorem filter_id_eq_singleton {l : List (Entry K V)}
    (hnd : (l.map Entry.id).Nodup) {e : Entry K V} (he : e ∈ l) :
    l.filter (fun x => x.id = e.id) = [e] := by
  induction l with
  | nil => simp at he
  | cons a rest ih =>
    simp only [List.map_cons, List.nodup_cons] at hnd
    obtain ⟨hnotin, hnd'⟩ := hnd
    rcases List.mem_cons.1 he with h | h
    · subst h
      have : rest.filter (fun x => x.id = e.id) = [] := by
        rw [List.filter_eq_nil_iff]
        intro x hx
        simp only [decide_eq_true_eq]
        intro hid
        exact hnotin (List.mem_map.2 ⟨x, hx, hid⟩)
      simp [List.filter_cons, this]
    · have hne : ¬ (a.id = e.id) := by
        intro hid
        exact hnotin (List.mem_map.2 ⟨e, h, hid.symm⟩)
      simp [List.filter_cons, hne, ih hnd' h]

theorem lookupB_of_mem {m : List (K × List Nat)}
    (hnd : (m.map Prod.fst).Nodup) {k : K} {b : List Nat}
    (h : (k, b) ∈ m) : lookupB m k = some b := by
  induction m with
  | nil => simp at h
  | cons p rest ih =>
    obtain ⟨k₀, b₀⟩ := p
    simp only [List.map_cons, List.nodup_cons] at hnd
    obtain ⟨hnotin, hnd'⟩ := hnd
    rcases List.mem_cons.1 h with h2 | h2
    · cases h2
      simp [lookupB]
    · have hk : k ≠ k₀ := by
        rintro rfl
        exact hnotin (List.mem_map.2 ⟨(k, b), h2, rfl⟩)
      simp [lookupB, hk, ih hnd' h2]

theorem keys_nodup_of_sorted {m : List (K × List Nat)}
    (hs : (m.map Prod.fst).Pairwise (· < ·)) : (m.map Prod.fst).Nodup :=
  hs.imp ne_of_lt

theorem findEntry_eq_some {l : List (Entry K V)}
    (hnd : (l.map Entry.id).Nodup) {e : Entry K V} (he : e ∈ l) :
    findEntry l e.id = some e := by
  induction l with
  | nil => simp at he
  | cons a rest ih =>
    simp only [List.map_cons, List.nodup_cons] at hnd
    obtain ⟨hnotin, hnd'⟩ := hnd
    rcases List.mem_cons.1 he with h | h
    · subst h
      simp [findEntry, List.find?_cons]
    · have hne : ¬ (a.id = e.id) := by
        intro hid
        exact hnotin (List.mem_map.2 ⟨e, h, hid.symm⟩)
      simpa [findEntry, List.find?_cons, hne] using ih hnd' h

/-! ### The invariant: projections and characterization -/

theorem Inv.sorted {c : Container K V} (h : Inv c) :
    (c.iterator_list_map.map Prod.fst).Pairwise (· < ·) := h.1

theorem Inv.buckets {c : Container K V} (h : Inv c) :
    ∀ p ∈ c.iterator_list_map,
      p.2 = (keyEntries c p.1).map Entry.id ∧ p.2 ≠ [] := h.2.1

theorem Inv.hasBucket {c : Container K V} (h : Inv c) :
    ∀ e ∈ c.pair_list, (lookupB c.iterator_list_map e.key).isSome := h.2.2.1

theorem Inv.idsNodup {c : Container K V} (h : Inv c) :
    (c.pair_list.map Entry.id).Nodup := h.2.2.2.1

theorem Inv.idsBound {c : Container K V} (h : Inv c) :
    ∀ e ∈ c.pair_list, e.id < c.nextId := h.2.2.2.2

theorem Inv.keysNodup {c : Container K V} (h : Inv c) :
    (c.iterator_list_map.map Prod.fst).Nodup :=
  keys_nodup_of_sorted h.sorted

/-- The single formula equivalent to invariants I1-I3: looking a key up in
the index yields `none` exactly when no entry holds it, and otherwise the
bucket is the id list of that key's queue entries, in queue order. -/
theorem Inv.lookup_char {c : Container K V} (h : Inv c) (k : K) :
    lookupB c.iterator_list_map k =
      if (keyEntries c k).isEmpty then none
      else some ((keyEntries c k).map Entry.id) := by
  rcases hl : lookupB c.iterator_list_map k with _ | b
  · have hke : keyEntries c k = [] := by
      by_contra hne
      obtain ⟨e, he⟩ := List.exists_mem_of_ne_nil _ hne
      have he' : e ∈ c.pair_list ∧ e.key = k := by
        simpa [keyEntries, List.mem_filter] using he
      have hsome := h.hasBucket e he'.1
      rw [he'.2, hl] at hsome
      simp at hsome
    simp [hke]
  · have hmem := mem_of_lookupB hl
    obtain ⟨hb, hne⟩ := h.buckets _ hmem
    have hkene : ¬ (keyEntries c k).isEmpty := by
      intro h0
      rw [List.isEmpty_iff] at h0
      rw [h0] at hb
      exact hne hb
    simp only [if_neg hkene]
    simp only at hb
    rw [hb]

theorem Inv.count_char {c : Container K V} (h : Inv c) (k : K) :
    countC c k = (keyEntries c k).length := by
  unfold countC
  rw [h.lookup_char]
  by_cases he : (keyEntries c k).isEmpty
  · rw [List.isEmpty_iff] at he
    simp [he]
  · simp [he]

/-! ### Invariant preservation: push -/

theorem keyEntries_pushC (c : Container K V) (k : K) (v : V) (k' : K) :
    keyEntries (pushC k v c) k' =
      if k' = k then keyEntries c k' ++ [⟨c.nextId, k, v⟩]
      else keyEntries c k' := by
  unfold keyEntries pushC
  rw [List.filter_append]
  by_cases h : k' = k
  · subst h
    simp
  · have h2 : ¬ ((⟨c.nextId, k, v⟩ : Entry K V).key = k') := fun hh => h (by
      simpa using hh.symm)
    simp [List.filter_cons, h2, h]

theorem inv_pushC {c : Container K V} (h : Inv c) (k : K) (v : V) :
    Inv (pushC k v c) := by
  have hs' : ((insertRef c.iterator_list_map k c.nextId).map Prod.fst).Pairwise
      (· < ·) := keys_insertRef_pairwise h.sorted k c.nextId
  have hlook : ∀ k', lookupB (pushC k v c).iterator_list_map k' =
      if k' = k then some ((lookupB c.iterator_list_map k).getD [] ++ [c.nextId])
      else lookupB c.iterator_list_map k' :=
    fun k' => lookupB_insertRef h.sorted k c.nextId k'
  have hgetD : (lookupB c.iterator_list_map k).getD [] =
      (keyEntries c k).map Entry.id := by
    rw [h.lookup_char]
    by_cases he : (keyEntries c k).isEmpty
    · rw [List.isEmpty_iff] at he
      simp [he]
    · simp [he]
  refine ⟨hs', ?_, ?_, ?_, ?_⟩
  · intro p hp
    have hl : lookupB (pushC k v c).iterator_list_map p.1 = some p.2 := by
      have : (p.1, p.2) ∈ (pushC k v c).iterator_list_map := hp
      exact lookupB_of_mem (keys_nodup_of_sorted hs') this
    rw [hlook p.1] at hl
    by_cases hk : p.1 = k
    · rw [if_pos hk] at hl
      have hp2 : p.2 = (keyEntries c k).map Entry.id ++ [c.nextId] := by
        rw [← hgetD]
        exact (Option.some.injEq _ _ ▸ hl).symm
      constructor
      · rw [keyEntries_pushC, if_pos hk, hp2, hk]
        simp
      · rw [hp2]
        simp
    · rw [if_neg hk] at hl
      obtain ⟨hb, hbne⟩ := h.buckets (p.1, p.2) (mem_of_lookupB hl)
      refine ⟨?_, hbne⟩
      rw [keyEntries_pushC, if_neg hk]
      exact hb
  · intro e he
    rw [pushC, List.mem_append] at he
    rw [hlook]
    rcases he with he | he
    · by_cases hk : e.key = k
      · rw [if_pos hk]
        simp
      · rw [if_neg hk]
        exact h.hasBucket e he
    · simp only [List.mem_singleton] at he
      subst he
      simp
  · have hmap : (pushC k v c).pair_list.map Entry.id =
        c.pair_list.map Entry.id ++ [c.nextId] := by
      simp [pushC]
    rw [hmap, List.nodup_append]
    refine ⟨h.idsNodup, List.nodup_singleton _, ?_⟩
    intro x hx hx'
    simp only [List.mem_singleton] at hx'
    subst hx'
    obtain ⟨e, he, hei⟩ := List.mem_map.1 hx
    exact absurd (hei ▸ h.idsBound e he) (lt_irrefl _)
  · intro e he
    rw [pushC, List.mem_append] at he
    rcases he with he | he
    · exact lt_trans (h.idsBound e he) (Nat.lt_succ_self _)
    · simp only [List.mem_singleton] at he
      subst he
      exact Nat.lt_succ_self _

/-! ### Invariant preservation: pop and pop(k) -/

theorem filter_comm' (p q : Entry K V → Bool) (l : List (Entry K V)) :
    (l.filter q).filter p = (l.filter p).filter q := by
  rw [List.filter_filter, List.filter_filter]
  exact List.filter_congr fun x _ => Bool.and_comm _ _

/-- Common index-side argument for `pop()` and `pop(k)`: both pop the
front reference of `k`'s bucket while removing the oldest `k`-entry from
the queue. -/
theorem inv_of_popFrontRef {c c' : Container K V} (h : Inv c) (k : K)
    (hm : c'.iterator_list_map = popFrontRef c.iterator_list_map k)
    (hnid : c'.nextId = c.nextId)
    (hkk : keyEntries c' k = (keyEntries c k).tail)
    (hko : ∀ k', k' ≠ k → keyEntries c' k' = keyEntries c k')
    (hnd : (c'.pair_list.map Entry.id).Nodup)
    (hsub : ∀ e ∈ c'.pair_list, e ∈ c.pair_list) : Inv c' := by
  have hs' : (c'.iterator_list_map.map Prod.fst).Pairwise (· < ·) := by
    rw [hm]
    exact List.Pairwise.sublist (keys_popFrontRef_sublist _ _) h.sorted
  have hself : lookupB c'.iterator_list_map k =
      (lookupB c.iterator_list_map k).bind
        (fun b => if b.tail.isEmpty then none else some b.tail) := by
    rw [hm]
    exact lookupB_popFrontRef_self h.keysNodup
  have hne : ∀ k', k' ≠ k →
      lookupB c'.iterator_list_map k' = lookupB c.iterator_list_map k' := by
    intro k' hk'
    rw [hm]
    exact lookupB_popFrontRef_ne hk'
  refine ⟨hs', ?_, ?_, hnd, ?_⟩
  · intro p hp
    have hl : lookupB c'.iterator_list_map p.1 = some p.2 :=
      lookupB_of_mem (keys_nodup_of_sorted hs') hp
    by_cases hk : p.1 = k
    · rw [hk, hself, h.lookup_char] at hl
      by_cases hemp : (keyEntries c k).isEmpty
      · simp [hemp] at hl
      · simp only [if_neg hemp, Option.some_bind] at hl
        by_cases htl : ((keyEntries c k).map Entry.id).tail.isEmpty
        · simp [htl] at hl
        · simp only [if_neg htl, Option.some.injEq] at hl
          have htl2 : ((keyEntries c k).map Entry.id).tail =
              (keyEntries c' k).map Entry.id := by
            rw [hkk, List.map_tail]
          constructor
          · rw [hk, ← hl, htl2]
          · rw [← hl]
            intro h0
            rw [h0] at htl
            simp at htl
    · rw [hne p.1 hk] at hl
      obtain ⟨hb, hbne⟩ := h.buckets (p.1, p.2) (mem_of_lookupB hl)
      simp only at hb
      exact ⟨by rw [hko p.1 hk]; exact hb, hbne⟩
  · intro e he
    by_cases hk : e.key = k
    · rw [hk, hself, h.lookup_char]
      have hmem : e ∈ keyEntries c' k := by
        rw [keyEntries, List.mem_filter]
        exact ⟨he, by simp [hk]⟩
      have hne2 : keyEntries c' k ≠ [] := List.ne_nil_of_mem hmem
      have hempty : ¬ (keyEntries c k).isEmpty := by
        intro h0
        rw [List.isEmpty_iff] at h0
        rw [hkk, h0] at hne2
        simp at hne2
      simp only [if_neg hempty, Option.some_bind]
      have htlne : (keyEntries c k).tail ≠ [] := by
        rw [← hkk]
        exact hne2
      have : ¬ ((keyEntries c k).map Entry.id).tail.isEmpty := by
        rw [← List.map_tail]
        intro h0
        rw [List.isEmpty_iff] at h0
        exact htlne (List.map_eq_nil_iff.1 h0)
      simp [this]
    · rw [hne e.key hk]
      exact h.hasBucket e (hsub e he)
  · intro e he
    rw [hnid]
    exact h.idsBound e (hsub e he)

theorem inv_popC {c : Container K V} (h : Inv c) : Inv (popC c) := by
  rcases hpl : c.pair_list with _ | ⟨e, rest⟩
  · unfold popC
    rw [hpl]
    exact h
  · have hkeyhd : keyEntries c e.key = e :: rest.filter (fun x => x.key = e.key) := by
      rw [keyEntries, hpl, List.filter_cons]
      simp
    refine inv_of_popFrontRef h e.key ?_ ?_ ?_ ?_ ?_ ?_
    · unfold popC
      rw [hpl]
    · unfold popC
      rw [hpl]
    · unfold popC keyEntries
      rw [hpl]
      simp [List.filter_cons]
    · intro k' hk'
      unfold popC keyEntries
      rw [hpl]
      simp only
      rw [List.filter_cons]
      have hne : ¬ (e.key = k') := fun hh => hk' hh.symm
      simp [hne]
    · have : (popC c).pair_list = rest := by
        unfold popC
        rw [hpl]
      rw [this]
      have hsub : (rest.map Entry.id).Sublist ((e :: rest).map Entry.id) := by
        simp only [List.map_cons]
        exact List.Sublist.cons _ (List.Sublist.refl _)
      exact (hpl ▸ h.idsNodup : ((e :: rest).map Entry.id).Nodup).sublist hsub
    · intro x hx
      have : (popC c).pair_list = rest := by
        unfold popC
        rw [hpl]
      rw [this] at hx
      rw [hpl]
      exact List.mem_cons_of_mem _ hx

theorem inv_popKeyC {c : Container K V} (h : Inv c) (k : K) :
    Inv (popKeyC c k) := by
  rcases hl : lookupB c.iterator_list_map k with _ | b
  · unfold popKeyC
    rw [hl]
    exact h
  · rcases b with _ | ⟨r, rs⟩
    · unfold popKeyC
      rw [hl]
      exact h
    · have hchar := h.lookup_char k
      rw [hl] at hchar
      by_cases hemp : (keyEntries c k).isEmpty
      · rw [if_pos hemp] at hchar
        cases hchar
      · rw [if_neg hemp] at hchar
        rcases hke : keyEntries c k with _ | ⟨e₀, es⟩
        · rw [hke] at hemp
          simp at hemp
        · rw [hke] at hchar
          have hids : e₀.id = r ∧ es.map Entry.id = rs := by
            have h2 := Option.some.inj hchar
            simp only [List.map_cons] at h2
            cases h2
            exact ⟨rfl, rfl⟩
          have he₀l : e₀ ∈ c.pair_list ∧ e₀.key = k := by
            have : e₀ ∈ keyEntries c k := by
              rw [hke]
              exact List.mem_cons_self _ _
            rw [keyEntries, List.mem_filter] at this
            exact ⟨this.1, by simpa using this.2⟩
          have hkesub : ((e₀ :: es).map Entry.id).Nodup := by
            have hsub : (keyEntries c k).Sublist c.pair_list :=
              List.filter_sublist _
            rw [hke] at hsub
            exact h.idsNodup.sublist (hsub.map Entry.id)
          have hr_not_es : ∀ x ∈ es, x.id ≠ r := by
            intro x hx hxr
            simp only [List.map_cons, List.nodup_cons] at hkesub
            exact hkesub.1 (List.mem_map.2 ⟨x, hx, hxr.trans hids.1.symm⟩)
          have hpl' : (popKeyC c k).pair_list =
              c.pair_list.filter (fun e => e.id ≠ r) := by
            unfold popKeyC
            rw [hl]
          have hfilter_comm : ∀ k' : K, keyEntries (popKeyC c k) k' =
              (keyEntries c k').filter (fun e => e.id ≠ r) := by
            intro k'
            rw [keyEntries, hpl', filter_comm']
            rfl
          refine inv_of_popFrontRef h k ?_ ?_ ?_ ?_ ?_ ?_
          · unfold popKeyC
            rw [hl]
          · unfold popKeyC
            rw [hl]
          · rw [hfilter_comm, hke, List.tail_cons, List.filter_cons]
            have h0 : (decide (e₀.id ≠ r)) = false := by simp [hids.1]
            rw [h0]
            simp only [Bool.false_eq_true, if_false]
            exact List.filter_eq_self.2 fun x hx => by
              simpa using hr_not_es x hx
          · intro k' hk'
            rw [hfilter_comm]
            refine List.filter_eq_self.2 ?_
            intro x hx
            rw [keyEntries, List.mem_filter] at hx
            have hxkey : x.key = k' := by simpa using hx.2
            have hxr : x.id ≠ r := by
              intro hxr
              have hx0 : x = e₀ := entry_eq_of_id h.idsNodup hx.1 he₀l.1
                (hxr.trans hids.1.symm)
              rw [hx0] at hxkey
              exact hk' (by rw [← hxkey, he₀l.2])
            simpa using hxr
          · rw [hpl']
            exact h.idsNodup.sublist ((List.filter_sublist _).map Entry.id)
          · intro x hx
            rw [hpl'] at hx
            exact (List.mem_filter.1 hx).1

/-! ### Invariant preservation: move_to_back -/

theorem spliceToEnd_perm (l : List (Entry K V)) (r : Nat) :
    (spliceToEnd l r).Perm l := by
  unfold spliceToEnd
  have h1 : l.filter (fun e => e.id ≠ r) =
      l.filter (fun e => !(decide (e.id = r))) := by
    apply List.filter_congr
    intro x _
    simp
  rw [h1]
  exact List.perm_append_comm.trans (List.filter_append_perm _ l)

/-- Splicing, one by one, the entries whose ids are `rs` (where `rs` lists,
in queue order, the ids of exactly those entries) moves them to the back in
that order and keeps every other entry in place. -/
theorem foldl_spliceToEnd (rs : List Nat) (l : List (Entry K V))
    (hnd : (l.map Entry.id).Nodup)
    (hrs : (l.filter (fun e => e.id ∈ rs)).map Entry.id = rs) :
    List.foldl spliceToEnd l rs =
      l.filter (fun e => e.id ∉ rs) ++ l.filter (fun e => e.id ∈ rs) := by
  induction rs generalizing l with
  | nil => simp
  | cons r rs' ih =>
    rcases hF : l.filter (fun e => e.id ∈ r :: rs') with _ | ⟨e₀, t⟩
    · rw [hF] at hrs
      simp at hrs
    · rw [hF] at hrs
      simp only [List.map_cons] at hrs
      injection hrs with h1 h2
      have he₀mem : e₀ ∈ l := by
        have : e₀ ∈ l.filter (fun e => e.id ∈ r :: rs') := by
          rw [hF]
          exact List.mem_cons_self _ _
        exact (List.mem_filter.1 this).1
      have hFnodup : ((e₀ :: t).map Entry.id).Nodup := by
        rw [← hF]
        exact hnd.sublist ((List.filter_sublist l).map Entry.id)
      simp only [List.map_cons, List.nodup_cons] at hFnodup
      have hr_not_rs' : r ∉ rs' := by
        rw [← h1, ← h2]
        exact hFnodup.1
      have hsing : l.filter (fun e => e.id = r) = [e₀] := by
        rw [← h1]
        exact filter_id_eq_singleton hnd he₀mem
      have hsplice : spliceToEnd l r =
          l.filter (fun e => e.id ≠ r) ++ [e₀] := by
        unfold spliceToEnd
        rw [hsing]
      have hperm : (spliceToEnd l r).Perm l := spliceToEnd_perm l r
      have hnd' : ((spliceToEnd l r).map Entry.id).Nodup :=
        ((hperm.map Entry.id).symm).nodup hnd
      have hsub1 : l.filter (fun e => e.id ∈ rs') = t := by
        have step1 : l.filter (fun e => e.id ∈ rs') =
            (l.filter (fun e => e.id ∈ r :: rs')).filter
              (fun e => e.id ∈ rs') := by
          rw [List.filter_filter]
          apply List.filter_congr
          intro x _
          by_cases hx : x.id ∈ rs' <;> simp [hx, List.mem_cons]
        rw [step1, hF, List.filter_cons]
        have h0 : (decide (e₀.id ∈ rs')) = false := by
          rw [h1]
          simpa using hr_not_rs'
        rw [h0]
        simp only [Bool.false_eq_true, if_false]
        exact List.filter_eq_self.2 fun x hx => by
          simp only [decide_eq_true_eq]
          have hxid : x.id ∈ t.map Entry.id := List.mem_map.2 ⟨x, hx, rfl⟩
          rw [h2] at hxid
          exact hxid
      have hA : (l.filter (fun e => e.id ≠ r)).filter
          (fun e => e.id ∈ rs') = l.filter (fun e => e.id ∈ rs') := by
        rw [List.filter_filter]
        apply List.filter_congr
        intro x _
        by_cases hx : x.id ∈ rs'
        · have hxr : x.id ≠ r := fun h0 => hr_not_rs' (h0 ▸ hx)
          simp [hx, hxr]
        · simp [hx]
      have hD : (spliceToEnd l r).filter (fun e => e.id ∈ rs') = t := by
        rw [hsplice, List.filter_append, hA, hsub1]
        have hB : [e₀].filter (fun e => e.id ∈ rs') = [] := by
          simp [h1, hr_not_rs']
        rw [hB, List.append_nil]
      have hrs2 : ((spliceToEnd l r).filter
          (fun e => e.id ∈ rs')).map Entry.id = rs' := by
        rw [hD, h2]
      have hIH := ih (spliceToEnd l r) hnd' hrs2
      rw [List.foldl_cons, hIH]
      have hC : (spliceToEnd l r).filter (fun e => e.id ∉ rs') =
          l.filter (fun e => e.id ∉ r :: rs') ++ [e₀] := by
        rw [hsplice, List.filter_append]
        congr 1
        · rw [List.filter_filter]
          apply List.filter_congr
          intro x _
          by_cases hxr : x.id = r
          · simp [hxr, hr_not_rs', List.mem_cons]
          · by_cases hx : x.id ∈ rs' <;>
              simp [hxr, hx, List.mem_cons]
        · rw [List.filter_cons]
          have h0 : (decide (e₀.id ∉ rs')) = true := by
            rw [h1]
            simpa using hr_not_rs'
          rw [h0]
          simp
      rw [hC, hD, hF, List.append_assoc]
      rfl

theorem pair_list_moveToBackC {c : Container K V} (h : Inv c) {k : K}
    {b : List Nat} (hl : lookupB c.iterator_list_map k = some b) :
    (moveToBackC c k).pair_list =
      c.pair_list.filter (fun e => ¬ e.key = k) ++
      c.pair_list.filter (fun e => e.key = k) := by
  obtain ⟨hb, _⟩ := h.buckets (k, b) (mem_of_lookupB hl)
  simp only at hb
  have hmemiff : ∀ e ∈ c.pair_list, (decide (e.id ∈ b)) = decide (e.key = k) := by
    intro e he
    by_cases hk : e.key = k
    · have : e ∈ keyEntries c k := by
        rw [keyEntries, List.mem_filter]
        exact ⟨he, by simpa using hk⟩
      have : e.id ∈ b := by
        rw [hb]
        exact List.mem_map.2 ⟨e, this, rfl⟩
      simp [this, hk]
    · have hnot : e.id ∉ b := by
        rw [hb]
        intro hmem
        obtain ⟨x, hx, hxid⟩ := List.mem_map.1 hmem
        rw [keyEntries, List.mem_filter] at hx
        have hxkey : x.key = k := by simpa using hx.2
        have : x = e := entry_eq_of_id h.idsNodup hx.1 he hxid
        exact hk (this ▸ hxkey)
      simp [hnot, hk]
  have hrs : (c.pair_list.filter (fun e => e.id ∈ b)).map Entry.id = b := by
    have : c.pair_list.filter (fun e => e.id ∈ b) =
        c.pair_list.filter (fun e => e.key = k) :=
      List.filter_congr hmemiff
    rw [this, ← keyEntries, ← hb]
  have hfold := foldl_spliceToEnd b c.pair_list h.idsNodup hrs
  have hpl : (moveToBackC c k).pair_list =
      List.foldl spliceToEnd c.pair_list b := by
    unfold moveToBackC
    rw [hl]
  rw [hpl, hfold]
  congr 1
  · apply List.filter_congr
    intro x hx
    have hx2 := hmemiff x hx
    simp only [decide_not]
    rw [hx2]
  · exact List.filter_congr hmemiff

theorem keyEntries_moveToBackC {c : Container K V} (h : Inv c) (k k' : K) :
    keyEntries (moveToBackC c k) k' = keyEntries c k' := by
  rcases hl : lookupB c.iterator_list_map k with _ | b
  · unfold moveToBackC
    rw [hl]
  · unfold keyEntries
    rw [pair_list_moveToBackC h hl, List.filter_append]
    by_cases hk : k' = k
    · subst hk
      have hA : (c.pair_list.filter (fun e => ¬ e.key = k')).filter
          (fun e => e.key = k') = [] := by
        rw [List.filter_filter]
        apply List.filter_eq_nil_iff.2
        intro x _
        by_cases hx : x.key = k' <;> simp [hx]
      have hB : (c.pair_list.filter (fun e => e.key = k')).filter
          (fun e => e.key = k') = c.pair_list.filter (fun e => e.key = k') := by
        rw [List.filter_filter]
        apply List.filter_congr
        intro x _
        by_cases hx : x.key = k' <;> simp [hx]
      rw [hA, hB, List.nil_append]
    · have hA : (c.pair_list.filter (fun e => ¬ e.key = k)).filter
          (fun e => e.key = k') = c.pair_list.filter (fun e => e.key = k') := by
        rw [List.filter_filter]
        apply List.filter_congr
        intro x _
        by_cases hx : x.key = k'
        · have hxx : ¬ x.key = k := fun h0 => hk (by rw [← hx, h0])
          simp [hx, hxx, hk]
        · simp [hx]
      have hB : (c.pair_list.filter (fun e => e.key = k)).filter
          (fun e => e.key = k') = [] := by
        rw [List.filter_filter]
        apply List.filter_eq_nil_iff.2
        intro x _
        by_cases hx : x.key = k'
        · have hxx : ¬ x.key = k := fun h0 => hk (by rw [← hx, h0])
          simp [hx, hxx, hk]
        · simp [hx]
      rw [hA, hB, List.append_nil]

theorem moveToBackC_perm {c : Container K V} (h : Inv c) {k : K}
    {b : List Nat} (hl : lookupB c.iterator_list_map k = some b) :
    (moveToBackC c k).pair_list.Perm c.pair_list := by
  rw [pair_list_moveToBackC h hl]
  have h1 : c.pair_list.filter (fun e => ¬ e.key = k) =
      c.pair_list.filter (fun e => !(decide (e.key = k))) := by
    apply List.filter_congr
    intro x _
    simp
  rw [h1]
  exact List.perm_append_comm.trans (List.filter_append_perm _ _)

theorem inv_moveToBackC {c : Container K V} (h : Inv c) (k : K) :
    Inv (moveToBackC c k) := by
  rcases hl : lookupB c.iterator_list_map k with _ | b
  · unfold moveToBackC
    rw [hl]
    exact h
  · have hm : (moveToBackC c k).iterator_list_map = c.iterator_list_map := by
      unfold moveToBackC
      rw [hl]
    have hnid : (moveToBackC c k).nextId = c.nextId := by
      unfold moveToBackC
      rw [hl]
    have hperm := moveToBackC_perm h hl
    refine ⟨?_, ?_, ?_, ?_, ?_⟩
    · rw [hm]
      exact h.sorted
    · intro p hp
      rw [hm] at hp
      obtain ⟨hb, hbne⟩ := h.buckets p hp
      rw [keyEntries_moveToBackC h]
      exact ⟨hb, hbne⟩
    · intro e he
      rw [hm]
      exact h.hasBucket e (hperm.subset he)
    · exact ((hperm.map Entry.id).symm).nodup h.idsNodup
    · intro e he
      rw [hnid]
      exact h.idsBound e (hperm.subset he)

theorem inv_clearC {c : Container K V} (h : Inv c) : Inv (clearC c) := by
  refine ⟨?_, ?_, ?_, ?_, ?_⟩ <;> simp [clearC, keyEntries]

theorem inv_emptyC : Inv (emptyC : Container K V) := by
  refine ⟨?_, ?_, ?_, ?_, ?_⟩ <;> simp [emptyC, keyEntries]

/-! ### Invariant preservation: value writes through mutable accessors -/

theorem filterkey_map_id_of_same {l l' : List (Entry K V)}
    (hids : l'.map (fun e => (e.id, e.key)) = l.map (fun e => (e.id, e.key)))
    (k : K) :
    (l'.filter (fun e => e.key = k)).map Entry.id =
      (l.filter (fun e => e.key = k)).map Entry.id := by
  induction l generalizing l' with
  | nil =>
    cases l' with
    | nil => rfl
    | cons a b => simp at hids
  | cons e rest ih =>
    cases l' with
    | nil => simp at hids
    | cons e' rest' =>
      simp only [List.map_cons, List.cons.injEq, Prod.mk.injEq] at hids
      obtain ⟨⟨hid, hkey⟩, htl⟩ := hids
      rw [List.filter_cons, List.filter_cons, hkey]
      by_cases hk : e.key = k
      · simp only [hk, decide_True, if_true, List.map_cons, hid]
        rw [ih htl]
      · simp only [hk, decide_False, Bool.false_eq_true, if_false]
        exact ih htl

/-- A container whose queue has the same ids and keys in the same order,
the same index and the same id supply satisfies the invariant as soon as
the original does: values do not enter I1-I3. -/
theorem inv_of_same_ids {c c' : Container K V} (h : Inv c)
    (hm : c'.iterator_list_map = c.iterator_list_map)
    (hn : c'.nextId = c.nextId)
    (hids : c'.pair_list.map (fun e => (e.id, e.key)) =
      c.pair_list.map (fun e => (e.id, e.key))) : Inv c' := by
  have hmapid : c'.pair_list.map Entry.id = c.pair_list.map Entry.id := by
    have h1 : (c'.pair_list.map (fun e => (e.id, e.key))).map Prod.fst =
        (c.pair_list.map (fun e => (e.id, e.key))).map Prod.fst := by
      rw [hids]
    simpa [List.map_map, Function.comp] using h1
  have hexists : ∀ x ∈ c'.pair_list,
      ∃ y ∈ c.pair_list, y.id = x.id ∧ y.key = x.key := by
    intro x hx
    have : (x.id, x.key) ∈ c.pair_list.map (fun e => (e.id, e.key)) := by
      rw [← hids]
      exact List.mem_map.2 ⟨x, hx, rfl⟩
    obtain ⟨y, hy, hyx⟩ := List.mem_map.1 this
    simp only [Prod.mk.injEq] at hyx
    exact ⟨y, hy, hyx.1, hyx.2⟩
  refine ⟨?_, ?_, ?_, ?_, ?_⟩
  · rw [hm]
    exact h.sorted
  · intro p hp
    rw [hm] at hp
    obtain ⟨hb, hbne⟩ := h.buckets p hp
    refine ⟨?_, hbne⟩
    rw [hb, keyEntries, keyEntries, filterkey_map_id_of_same hids]
  · intro e he
    obtain ⟨y, hy, _, hykey⟩ := hexists e he
    rw [hm, ← hykey]
    exact h.hasBucket y hy
  · rw [hmapid]
    exact h.idsNodup
  · intro e he
    obtain ⟨y, hy, hyid, _⟩ := hexists e he
    rw [hn, ← hyid]
    exact h.idsBound y hy

theorem inv_writeFrontC {c : Container K V} (h : Inv c) (v : V) :
    Inv (writeFrontC c v) := by
  rcases hpl : c.pair_list with _ | ⟨e, rest⟩
  · unfold writeFrontC
    rw [hpl]
    exact h
  · refine inv_of_same_ids h ?_ ?_ ?_
    · unfold writeFrontC
      rw [hpl]
    · unfold writeFrontC
      rw [hpl]
    · unfold writeFrontC
      rw [hpl]
      simp

theorem inv_writeBackC {c : Container K V} (h : Inv c) (v : V) :
    Inv (writeBackC c v) := by
  rcases hgl : c.pair_list.getLast? with _ | e
  · unfold writeBackC
    rw [hgl]
    exact h
  · obtain ⟨l₁, hl₁⟩ := List.getLast?_eq_some_iff.1 hgl
    refine inv_of_same_ids h ?_ ?_ ?_
    · unfold writeBackC
      rw [hgl]
    · unfold writeBackC
      rw [hgl]
    · unfold writeBackC
      rw [hgl]
      simp only [hl₁, List.dropLast_concat, List.map_append]
      simp

/-! ### Sequences of public operations -/

/-- The mutating public operations of the container (writing through a
mutable `front()`/`back()` reference is `writeFront`/`writeBack`). -/
inductive OpC (K V : Type) where
  | push (k : K) (v : V)
  | pop
  | popKey (k : K)
  | moveToBack (k : K)
  | clear
  | writeFront (v : V)
  | writeBack (v : V)

/-- The mutable `front()` with its emptiness check followed by an
in-place overwrite of the returned value reference. -/
def writeFrontE (c : Container K V) (v : V) : Except Err (Container K V) :=
  if c.pair_list.isEmpty then .error .emptyCollection
  else .ok (writeFrontC c v)

/-- The mutable `back()` with its emptiness check followed by an
in-place overwrite of the returned value reference. -/
def writeBackE (c : Container K V) (v : V) : Except Err (Container K V) :=
  if c.pair_list.isEmpty then .error .emptyCollection
  else .ok (writeBackC c v)

def runOp (c : Container K V) : OpC K V → Except Err (Container K V)
  | .push k v => .ok (pushC k v c)
  | .pop => popE c
  | .popKey k => popKeyE c k
  | .moveToBack k => moveToBackE c k
  | .clear => .ok (clearC c)
  | .writeFront v => writeFrontE c v
  | .writeBack v => writeBackE c v

def runOps : List (OpC K V) → Container K V → Except Err (Container K V)
  | [], c => .ok c
  | op :: ops, c =>
    match runOp c op with
    | .error e => .error e
    | .ok c' => runOps ops c'

theorem inv_runOp {c c' : Container K V} (h : Inv c) {op : OpC K V}
    (hr : runOp c op = .ok c') : Inv c' := by
  cases op with
  | push k v =>
    cases hr
    exact inv_pushC h k v
  | pop =>
    simp only [runOp] at hr
    unfold popE at hr
    by_cases he : c.pair_list.isEmpty
    · rw [if_pos he] at hr
      cases hr
    · rw [if_neg he] at hr
      cases hr
      exact inv_popC h
  | popKey k =>
    simp only [runOp] at hr
    unfold popKeyE at hr
    by_cases he : c.pair_list.isEmpty
    · rw [if_pos he] at hr
      cases hr
    · rw [if_neg he] at hr
      rcases hl : lookupB c.iterator_list_map k with _ | b <;> rw [hl] at hr
      · cases hr
      · cases hr
        exact inv_popKeyC h k
  | moveToBack k =>
    simp only [runOp] at hr
    unfold moveToBackE at hr
    by_cases he : c.pair_list.isEmpty
    · rw [if_pos he] at hr
      cases hr
    · rw [if_neg he] at hr
      rcases hl : lookupB c.iterator_list_map k with _ | b <;> rw [hl] at hr
      · cases hr
      · cases hr
        exact inv_moveToBackC h k
  | clear =>
    cases hr
    exact inv_clearC h
  | writeFront v =>
    simp only [runOp] at hr
    unfold writeFrontE at hr
    by_cases he : c.pair_list.isEmpty
    · rw [if_pos he] at hr
      cases hr
    · rw [if_neg he] at hr
      cases hr
      exact inv_writeFrontC h v
  | writeBack v =>
    simp only [runOp] at hr
    unfold writeBackE at hr
    by_cases he : c.pair_list.isEmpty
    · rw [if_pos he] at hr
      cases hr
    · rw [if_neg he] at hr
      cases hr
      exact inv_writeBackC h v

theorem inv_runOps {ops : List (OpC K V)} {c c' : Container K V}
    (h : Inv c) (hr : runOps ops c = .ok c') : Inv c' := by
  induction ops generalizing c with
  | nil =>
    cases hr
    exact h
  | cons op ops ih =>
    unfold runOps at hr
    rcases hstep : runOp c op with e | c₁ <;> rw [hstep] at hr
    · cases hr
    · exact ih (inv_runOp h hstep) hr

/-! ### Claim C1: the structural invariants I1-I3 -/

/-- C1: after every normally-completing sequence of public operations on a
fresh container, for every key `k`: `count(k)` equals the number of queue
entries holding `k`; a key has a bucket iff at least one entry holds it;
and the bucket lists exactly the references of those entries, in their
queue order. -/
theorem C1_invariants (ops : List (OpC K V)) (c : Container K V)
    (hr : runOps ops emptyC = .ok c) (k : K) :
    countC c k = (keyEntries c k).length ∧
    (keyEntries c k = [] → lookupB c.iterator_list_map k = none) ∧
    (keyEntries c k ≠ [] →
      lookupB c.iterator_list_map k = some ((keyEntries c k).map Entry.id)) := by
  have hinv : Inv c := inv_runOps inv_emptyC hr
  refine ⟨hinv.count_char k, ?_, ?_⟩
  · intro h0
    rw [hinv.lookup_char, h0]
    simp
  · intro h0
    rw [hinv.lookup_char]
    rw [if_neg (by simpa [List.isEmpty_iff] using h0)]

theorem C1_invariants_witness :
    runOps [OpC.push 1 10, OpC.push 2 20, OpC.push 1 30, OpC.popKey 1]
        (emptyC : Container Nat Nat) =
      .ok (popKeyC (pushC 1 30 (pushC 2 20 (pushC 1 10 emptyC))) 1) ∧
    countC (popKeyC (pushC 1 30 (pushC 2 20 (pushC 1 10 emptyC))) 1) 1 =
      (keyEntries (popKeyC (pushC 1 30 (pushC 2 20 (pushC 1 10 emptyC))) 1)
        1).length :=
  ⟨by decide,
   (C1_invariants [OpC.push 1 10, OpC.push 2 20, OpC.push 1 30, OpC.popKey 1]
     (popKeyC (pushC 1 30 (pushC 2 20 (pushC 1 10 emptyC))) 1)
     (by decide) 1).1⟩

/-! ### Claim C2: global FIFO order -/

/-- A sequence of `push` calls. -/
def pushAllC (l : List (K × V)) (c : Container K V) : Container K V :=
  l.foldl (fun c p => pushC p.1 p.2 c) c

/-- Repeatedly reading `front()` and then calling `pop()`, `n` times,
collecting the observed key/value pairs. -/
def drain : Nat → Container K V → List (K × V)
  | 0, _ => []
  | n + 1, c =>
    match frontE c, popE c with
    | .ok p, .ok c' => p :: drain n c'
    | _, _ => []

theorem toPairs_pushC (c : Container K V) (k : K) (v : V) :
    toPairs (pushC k v c) = toPairs c ++ [(k, v)] := by
  simp [toPairs, pushC]

theorem toPairs_pushAllC (l : List (K × V)) (c : Container K V) :
    toPairs (pushAllC l c) = toPairs c ++ l := by
  induction l generalizing c with
  | nil => simp [pushAllC]
  | cons p rest ih =>
    obtain ⟨k, v⟩ := p
    show toPairs (pushAllC rest (pushC k v c)) = toPairs c ++ (k, v) :: rest
    rw [ih, toPairs_pushC]
    simp

theorem drain_toPairs (n : Nat) (c : Container K V) (hn : n = sizeC c) :
    drain n c = toPairs c := by
  induction n generalizing c with
  | zero =>
    have : c.pair_list = [] := by
      rw [sizeC] at hn
      exact List.length_eq_zero.1 hn.symm
    simp [drain, toPairs, this]
  | succ n ih =>
    rcases hpl : c.pair_list with _ | ⟨e, rest⟩
    · rw [sizeC, hpl] at hn
      cases hn
    · have hfront : frontE c = .ok (e.key, e.val) := by
        unfold frontE
        rw [hpl]
      have hpop : popE c = .ok (popC c) := by
        unfold popE
        rw [hpl]
        simp
      have hplpop : (popC c).pair_list = rest := by
        unfold popC
        rw [hpl]
      have hsz : n = sizeC (popC c) := by
        rw [sizeC, hplpop]
        rw [sizeC, hpl] at hn
        simpa using hn
      unfold drain
      rw [hfront, hpop]
      show (e.key, e.val) :: drain n (popC c) = toPairs c
      rw [ih (popC c) hsz, toPairs, toPairs, hpl, hplpop]
      simp

/-- C2: pushing any sequence of entries onto a fresh container and then
repeatedly reading `front()` and popping yields exactly the pushed entries
in insertion order, and `size()` equals the number of pushes. -/
theorem C2_fifo_order (l : List (K × V)) :
    drain (sizeC (pushAllC l emptyC)) (pushAllC l emptyC) = l ∧
    sizeC (pushAllC l emptyC) = l.length := by
  have htp : toPairs (pushAllC l emptyC) = l := by
    rw [toPairs_pushAllC]
    simp [toPairs, emptyC]
  constructor
  · rw [drain_toPairs _ _ rfl, htp]
  · have : sizeC (pushAllC l emptyC) = (toPairs (pushAllC l emptyC)).length := by
      simp [sizeC, toPairs]
    rw [this, htp]

/-! ### Claim C3: move_to_back relocates a key's entries to the back -/

theorem toPairs_filter_key (l : List (Entry K V)) (k : K) :
    (l.map (fun e => (e.key, e.val))).filter (fun p => p.1 = k) =
      (l.filter (fun e => e.key = k)).map (fun e => (e.key, e.val)) := by
  rw [List.filter_map]
  congr 1

theorem toPairs_filter_key_not (l : List (Entry K V)) (k : K) :
    (l.map (fun e => (e.key, e.val))).filter (fun p => ¬ p.1 = k) =
      (l.filter (fun e => ¬ e.key = k)).map (fun e => (e.key, e.val)) := by
  rw [List.filter_map]
  congr 1

theorem moveToBackE_ok {c : Container K V} (h : Inv c) {k : K}
    (hk : keyEntries c k ≠ []) :
    moveToBackE c k = .ok (moveToBackC c k) := by
  have hne : ¬ c.pair_list.isEmpty := by
    intro h0
    rw [List.isEmpty_iff] at h0
    apply hk
    rw [keyEntries, h0]
    rfl
  have hl : lookupB c.iterator_list_map k =
      some ((keyEntries c k).map Entry.id) := by
    rw [h.lookup_char]
    rw [if_neg (by simpa [List.isEmpty_iff] using hk)]
  unfold moveToBackE
  rw [if_neg hne, hl]

theorem toPairs_moveToBackC {c : Container K V} (h : Inv c) {k : K}
    (hk : keyEntries c k ≠ []) :
    toPairs (moveToBackC c k) =
      (toPairs c).filter (fun p => ¬ p.1 = k) ++
      (toPairs c).filter (fun p => p.1 = k) := by
  have hl : lookupB c.iterator_list_map k =
      some ((keyEntries c k).map Entry.id) := by
    rw [h.lookup_char]
    rw [if_neg (by simpa [List.isEmpty_iff] using hk)]
  rw [toPairs, pair_list_moveToBackC h hl, List.map_append]
  rw [toPairs, toPairs_filter_key_not, toPairs_filter_key]

/-- C3: when key `k` is present, `move_to_back(k)` reorders the queue to
the non-`k` entries (their relative order untouched) followed by the `k`
entries in their previous relative order; a second call leaves the queue
unchanged.  In particular, on entries `(1,1),(2,2),(1,3)` the call
`move_to_back 1` yields queue `(2,2),(1,1),(1,3)` and calling it again
changes nothing. -/
theorem C3_moveKeyToBack {c : Container K V} (h : Inv c) {k : K}
    (hk : keyEntries c k ≠ []) :
    (moveToBackE c k = .ok (moveToBackC c k) ∧
     toPairs (moveToBackC c k) =
       (toPairs c).filter (fun p => ¬ p.1 = k) ++
       (toPairs c).filter (fun p => p.1 = k) ∧
     toPairs (moveToBackC (moveToBackC c k) k) =
       toPairs (moveToBackC c k)) ∧
    (toPairs (moveToBackC (pushAllC [(1, 1), (2, 2), (1, 3)] emptyC) 1) =
       ([(2, 2), (1, 1), (1, 3)] : List (Nat × Nat)) ∧
     toPairs (moveToBackC
         (moveToBackC (pushAllC [(1, 1), (2, 2), (1, 3)] emptyC) 1) 1) =
       ([(2, 2), (1, 1), (1, 3)] : List (Nat × Nat))) := by
  refine ⟨⟨moveToBackE_ok h hk, toPairs_moveToBackC h hk, ?_⟩, by decide, by decide⟩
  have h2 : Inv (moveToBackC c k) := inv_moveToBackC h k
  have hk2 : keyEntries (moveToBackC c k) k ≠ [] := by
    rw [keyEntries_moveToBackC h]
    exact hk
  rw [toPairs_moveToBackC h2 hk2, toPairs_moveToBackC h hk]
  have hA : ((toPairs c).filter (fun p => ¬ p.1 = k) ++
      (toPairs c).filter (fun p => p.1 = k)).filter (fun p => ¬ p.1 = k) =
      (toPairs c).filter (fun p => ¬ p.1 = k) := by
    rw [List.filter_append]
    have h1 : ((toPairs c).filter (fun p => ¬ p.1 = k)).filter
        (fun p => ¬ p.1 = k) = (toPairs c).filter (fun p => ¬ p.1 = k) := by
      apply List.filter_eq_self.2
      intro x hx
      exact (List.mem_filter.1 hx).2
    have h2 : ((toPairs c).filter (fun p => p.1 = k)).filter
        (fun p => ¬ p.1 = k) = [] := by
      apply List.filter_eq_nil_iff.2
      intro x hx
      have hxk := (List.mem_filter.1 hx).2
      simp only [decide_eq_true_eq] at hxk
      simp [hxk]
    rw [h1, h2, List.append_nil]
  have hB : ((toPairs c).filter (fun p => ¬ p.1 = k) ++
      (toPairs c).filter (fun p => p.1 = k)).filter (fun p => p.1 = k) =
      (toPairs c).filter (fun p => p.1 = k) := by
    rw [List.filter_append]
    have h1 : ((toPairs c).filter (fun p => ¬ p.1 = k)).filter
        (fun p => p.1 = k) = [] := by
      apply List.filter_eq_nil_iff.2
      intro x hx
      have hxk := (List.mem_filter.1 hx).2
      simp only [decide_eq_true_eq] at hxk
      simp [hxk]
    have h2 : ((toPairs c).filter (fun p => p.1 = k)).filter
        (fun p => p.1 = k) = (toPairs c).filter (fun p => p.1 = k) := by
      apply List.filter_eq_self.2
      intro x hx
      exact (List.mem_filter.1 hx).2
    rw [h1, h2, List.nil_append]
  rw [hA, hB]

theorem C3_moveKeyToBack_witness :
    toPairs (moveToBackC (pushAllC [(1, 1), (2, 2), (1, 3)] emptyC) 1) =
      ([(2, 2), (1, 1), (1, 3)] : List (Nat × Nat)) :=
  ((C3_moveKeyToBack
      (by decide :
        Inv (pushAllC [(1, 1), (2, 2), (1, 3)] (emptyC : Container Nat Nat)))
      (by decide :
        keyEntries (pushAllC [(1, 1), (2, 2), (1, 3)]
          (emptyC : Container Nat Nat)) 1 ≠ [])).2).1

/-! ### Claim C8: per-key FIFO semantics -/

theorem filter_eq_cons_split {p : Entry K V → Bool} {l : List (Entry K V)}
    {e : Entry K V} {es : List (Entry K V)} (h : l.filter p = e :: es) :
    ∃ l₁ l₂, l = l₁ ++ e :: l₂ ∧ (∀ x ∈ l₁, p x = false) ∧
      l₂.filter p = es := by
  induction l with
  | nil => simp at h
  | cons a rest ih =>
    rw [List.filter_cons] at h
    by_cases hp : p a
    · rw [if_pos hp] at h
      injection h with h1 h2
      subst h1
      exact ⟨[], rest, rfl, by simp, h2⟩
    · rw [if_neg hp] at h
      obtain ⟨l₁, l₂, hsplit, hfalse, hfilt⟩ := ih h
      refine ⟨a :: l₁, l₂, by rw [hsplit]; rfl, ?_, hfilt⟩
      intro x hx
      rcases List.mem_cons.1 hx with hx | hx
      · subst hx
        exact Bool.of_not_eq_true hp
      · exact hfalse x hx

theorem keyEntries_sub {c : Container K V} {k : K} {e : Entry K V}
    (he : e ∈ keyEntries c k) : e ∈ c.pair_list ∧ e.key = k := by
  rw [keyEntries, List.mem_filter] at he
  exact ⟨he.1, by simpa using he.2⟩

/-- C8: when `k` is present, `first(k)` returns the oldest entry holding
`k` and `last(k)` the newest; `pop(k)` removes exactly the oldest `k`
entry from the queue and the front reference from the bucket (dropping
the bucket when it empties); and in the two-value example `first(k)`
returns the first value until `pop(k)`, then the second. -/
theorem not_isEmpty_of_keyEntries {c : Container K V} {k : K}
    {e : Entry K V} {es : List (Entry K V)} (hke : keyEntries c k = e :: es) :
    ¬ c.pair_list.isEmpty = true := by
  intro h0
  rw [List.isEmpty_iff] at h0
  have h1 : keyEntries c k = [] := by
    rw [keyEntries, h0]
    rfl
  rw [hke] at h1
  cases h1

theorem lookupB_of_keyEntries_cons {c : Container K V} (h : Inv c) {k : K}
    {e : Entry K V} {es : List (Entry K V)} (hke : keyEntries c k = e :: es) :
    lookupB c.iterator_list_map k = some ((e :: es).map Entry.id) := by
  rw [h.lookup_char, hke]
  simp

/-- `first(k)` returns the oldest entry holding `k`. -/
theorem firstE_ok {c : Container K V} (h : Inv c) {k : K}
    {e : Entry K V} {es : List (Entry K V)} (hke : keyEntries c k = e :: es) :
    firstE c k = .ok (e.key, e.val) := by
  have hnemp := not_isEmpty_of_keyEntries hke
  have hlook := lookupB_of_keyEntries_cons h hke
  have hel : e ∈ c.pair_list :=
    (keyEntries_sub (hke ▸ List.mem_cons_self e es)).1
  unfold firstE
  rw [if_neg hnemp, hlook]
  have hstep : some e.id >>= findEntry c.pair_list = some e :=
    findEntry_eq_some h.idsNodup hel
  show (match some e.id >>= findEntry c.pair_list with
        | none => Except.error Err.keyNotFound
        | some x => Except.ok (x.key, x.val)) = Except.ok (e.key, e.val)
  rw [hstep]

/-- `last(k)` returns the newest entry holding `k`. -/
theorem lastE_ok {c : Container K V} (h : Inv c) {k : K}
    {e : Entry K V} {es : List (Entry K V)} (hke : keyEntries c k = e :: es) :
    lastE c k =
      .ok (((e :: es).getLast (List.cons_ne_nil e es)).key,
           ((e :: es).getLast (List.cons_ne_nil e es)).val) := by
  have hnemp := not_isEmpty_of_keyEntries hke
  have hlook := lookupB_of_keyEntries_cons h hke
  unfold lastE
  rw [if_neg hnemp, hlook]
  have hmapne : (e :: es).map Entry.id ≠ [] := by simp
  have hmem0 : (e :: es).getLast (List.cons_ne_nil e es) ∈ keyEntries c k := by
    rw [hke]
    exact List.getLast_mem _
  have hmem : (e :: es).getLast (List.cons_ne_nil e es) ∈ c.pair_list :=
    (keyEntries_sub hmem0).1
  have hgl : ((e :: es).map Entry.id).getLast? =
      some (((e :: es).getLast (List.cons_ne_nil e es)).id) := by
    rw [List.getLast?_eq_getLast _ hmapne, List.getLast_map]
  show (match ((e :: es).map Entry.id).getLast? >>= findEntry c.pair_list with
        | none => Except.error Err.keyNotFound
        | some x => Except.ok (x.key, x.val)) =
      Except.ok (((e :: es).getLast (List.cons_ne_nil e es)).key,
                 ((e :: es).getLast (List.cons_ne_nil e es)).val)
  rw [hgl]
  have hstep : some (((e :: es).getLast (List.cons_ne_nil e es)).id) >>=
      findEntry c.pair_list =
      some ((e :: es).getLast (List.cons_ne_nil e es)) :=
    findEntry_eq_some h.idsNodup hmem
  rw [hstep]

/-- `pop(k)` succeeds when `k` is present. -/
theorem popKeyE_ok {c : Container K V} (h : Inv c) {k : K}
    {e : Entry K V} {es : List (Entry K V)} (hke : keyEntries c k = e :: es) :
    popKeyE c k = .ok (popKeyC c k) := by
  unfold popKeyE
  rw [if_neg (not_isEmpty_of_keyEntries hke), lookupB_of_keyEntries_cons h hke]

theorem C8_per_key_fifo {c : Container K V} (h : Inv c) {k : K}
    {e : Entry K V} {es : List (Entry K V)}
    (hke : keyEntries c k = e :: es) :
    (firstE c k = .ok (e.key, e.val) ∧
     lastE c k =
       .ok (((e :: es).getLast (List.cons_ne_nil e es)).key,
            ((e :: es).getLast (List.cons_ne_nil e es)).val) ∧
     popKeyE c k = .ok (popKeyC c k) ∧
     (∃ l₁ l₂, c.pair_list = l₁ ++ e :: l₂ ∧
        (∀ x ∈ l₁, ¬ x.key = k) ∧ (popKeyC c k).pair_list = l₁ ++ l₂) ∧
     keyEntries (popKeyC c k) k = es ∧
     (∀ k', k' ≠ k → keyEntries (popKeyC c k) k' = keyEntries c k') ∧
     lookupB (popKeyC c k).iterator_list_map k =
       (if es.isEmpty then none else some (es.map Entry.id))) ∧
    (firstE (pushAllC [(1, 11), (1, 22)] emptyC) 1 = .ok ((1 : Nat), (11 : Nat)) ∧
     firstE (popKeyC (pushAllC [(1, 11), (1, 22)] emptyC) 1) 1 = .ok (1, 22)) := by
  have hnemp : ¬ c.pair_list.isEmpty := by
    intro h0
    rw [List.isEmpty_iff] at h0
    have : keyEntries c k = [] := by
      rw [keyEntries, h0]
      rfl
    rw [hke] at this
    cases this
  have hlook : lookupB c.iterator_list_map k =
      some ((e :: es).map Entry.id) := by
    rw [h.lookup_char, hke]
    simp
  have hel : e ∈ c.pair_list := (keyEntries_sub (hke ▸ List.mem_cons_self e es)).1
  have hinv2 := inv_popKeyC h k
  refine ⟨⟨firstE_ok h hke, lastE_ok h hke, popKeyE_ok h hke,
    ?_, ?_, ?_, ?_⟩, by decide, by decide⟩
  · obtain ⟨l₁, l₂, hsplit, hfalse, hfilt⟩ :=
      filter_eq_cons_split (p := fun x => decide (x.key = k)) hke
    refine ⟨l₁, l₂, hsplit, ?_, ?_⟩
    · intro x hx
      have := hfalse x hx
      simpa using this
    · have hpl : (popKeyC c k).pair_list =
          c.pair_list.filter (fun x => x.id ≠ e.id) := by
        unfold popKeyC
        rw [hlook]
        rfl
      rw [hpl, hsplit, List.filter_append, List.filter_cons]
      have h1 : l₁.filter (fun x => x.id ≠ e.id) = l₁ := by
        apply List.filter_eq_self.2
        intro x hx
        have hxid : x.id ≠ e.id := by
          intro h0
          have hx0 : x = e := entry_eq_of_id h.idsNodup
            (hsplit ▸ List.mem_append_left _ hx) hel h0
          have := hfalse x hx
          rw [hx0] at this
          have he2 := (keyEntries_sub (hke ▸ List.mem_cons_self e es)).2
          simp [he2] at this
        simpa using hxid
      have h2 : (decide (e.id ≠ e.id)) = false := by simp
      have h3 : l₂.filter (fun x => x.id ≠ e.id) = l₂ := by
        apply List.filter_eq_self.2
        intro x hx
        have hnd := h.idsNodup
        rw [hsplit] at hnd
        simp only [List.map_append, List.map_cons] at hnd
        rw [List.nodup_append] at hnd
        obtain ⟨_, hnd2, hdisj⟩ := hnd
        rw [List.nodup_cons] at hnd2
        have : e.id ∉ l₂.map Entry.id := hnd2.1
        have hxid : x.id ≠ e.id := by
          intro h0
          exact this (h0 ▸ List.mem_map.2 ⟨x, hx, rfl⟩)
        simpa using hxid
      rw [h1, h2, h3]
      simp
  · have hpl : (popKeyC c k).pair_list =
        c.pair_list.filter (fun x => x.id ≠ e.id) := by
      unfold popKeyC
      rw [hlook]
      rfl
    have hcomm : keyEntries (popKeyC c k) k =
        (keyEntries c k).filter (fun x => x.id ≠ e.id) := by
      rw [keyEntries, hpl, filter_comm']
      rfl
    rw [hcomm, hke, List.filter_cons]
    have h2 : (decide (e.id ≠ e.id)) = false := by simp
    rw [h2]
    simp only [Bool.false_eq_true, if_false]
    apply List.filter_eq_self.2
    intro x hx
    have hnd : ((e :: es).map Entry.id).Nodup := by
      have hsub : (keyEntries c k).Sublist c.pair_list := List.filter_sublist _
      rw [hke] at hsub
      exact h.idsNodup.sublist (hsub.map Entry.id)
    simp only [List.map_cons, List.nodup_cons] at hnd
    have hxid : x.id ≠ e.id := by
      intro h0
      exact hnd.1 (h0 ▸ List.mem_map.2 ⟨x, hx, rfl⟩)
    simpa using hxid
  · intro k' hk'
    have hpl : (popKeyC c k).pair_list =
        c.pair_list.filter (fun x => x.id ≠ e.id) := by
      unfold popKeyC
      rw [hlook]
      rfl
    have hcomm : keyEntries (popKeyC c k) k' =
        (keyEntries c k').filter (fun x => x.id ≠ e.id) := by
      rw [keyEntries, hpl, filter_comm']
      rfl
    rw [hcomm]
    apply List.filter_eq_self.2
    intro x hx
    have hxk := keyEntries_sub hx
    have hxid : x.id ≠ e.id := by
      intro h0
      have hx0 : x = e := entry_eq_of_id h.idsNodup hxk.1 hel h0
      have he2 := (keyEntries_sub (hke ▸ List.mem_cons_self e es)).2
      rw [hx0, he2] at hxk
      exact hk' hxk.2.symm
    simpa using hxid
  · have hm : (popKeyC c k).iterator_list_map =
        popFrontRef c.iterator_list_map k := by
      unfold popKeyC
      rw [hlook]
      rfl
    rw [hm, lookupB_popFrontRef_self h.keysNodup, hlook]
    simp only [Option.some_bind, List.map_cons, List.tail_cons]
    by_cases hes : es.isEmpty
    · rw [List.isEmpty_iff] at hes
      simp [hes]
    · have : ¬ (es.map Entry.id).isEmpty := by
        rw [List.isEmpty_iff] at hes ⊢
        simpa using hes
      rw [if_neg this, if_neg hes]

theorem C8_per_key_fifo_witness :
    firstE (pushAllC [(1, 11), (1, 22)] emptyC) 1 = .ok ((1 : Nat), (11 : Nat)) :=
  (C8_per_key_fifo
    (by decide : Inv (pushAllC [(1, 11), (1, 22)] (emptyC : Container Nat Nat)))
    (by decide : keyEntries (pushAllC [(1, 11), (1, 22)]
      (emptyC : Container Nat Nat)) 1 =
        ⟨0, 1, 11⟩ :: [⟨1, 1, 22⟩])).2.1

/-! ### Claim C9: distinct-key iteration -/

/-- C9: the key sequence produced by `k_begin()`…`k_end()` is strictly
ascending (hence duplicate-free), and contains exactly the keys with
positive `count`. -/
theorem C9_key_iteration {c : Container K V} (h : Inv c) :
    (keysC c).Pairwise (· < ·) ∧ (keysC c).Nodup ∧
    (∀ k, k ∈ keysC c ↔ 0 < countC c k) := by
  refine ⟨h.sorted, h.keysNodup, ?_⟩
  intro k
  constructor
  · intro hk
    have hsome : (lookupB c.iterator_list_map k).isSome := lookupB_isSome.2 hk
    obtain ⟨b, hb⟩ := Option.isSome_iff_exists.1 hsome
    obtain ⟨_, hbne⟩ := h.buckets (k, b) (mem_of_lookupB hb)
    unfold countC
    rw [hb]
    exact List.length_pos.2 hbne
  · intro hc
    by_contra hk
    have hnone : lookupB c.iterator_list_map k = none := lookupB_eq_none.2 hk
    unfold countC at hc
    rw [hnone] at hc
    exact lt_irrefl 0 hc

theorem C9_key_iteration_witness :
    (keysC (pushAllC [(2, 5), (1, 6), (2, 7)]
      (emptyC : Container Nat Nat))).Pairwise (· < ·) :=
  (C9_key_iteration
    (by decide :
      Inv (pushAllC [(2, 5), (1, 6), (2, 7)] (emptyC : Container Nat Nat)))).1

/-! ### The deep clone (`container_t` copy constructor, lines 377-399) -/

/-- The map reconstruction of the `container_t` copy constructor: walk the
copied queue in order and append each entry's reference to its key's
bucket (creating buckets at their sorted `std::map` position). -/
def rebuildMap (l : List (Entry K V)) : List (K × List Nat) :=
  l.foldl (fun m e => insertRef m e.key e.id) []

/-- The `container_t` copy constructor: copy the queue, then rebuild the
key index from it.  (The fresh C++ list nodes are modelled by keeping each
entry's id, which preserves the iterator structure up to renaming.) -/
def cloneC (c : Container K V) : Container K V :=
  { pair_list := c.pair_list
    iterator_list_map := rebuildMap c.pair_list
    nextId := c.nextId }

theorem rebuildMap_append (l : List (Entry K V)) (e : Entry K V) :
    rebuildMap (l ++ [e]) = insertRef (rebuildMap l) e.key e.id := by
  unfold rebuildMap
  rw [List.foldl_append]
  rfl

theorem rebuildMap_sorted (l : List (Entry K V)) :
    ((rebuildMap l).map Prod.fst).Pairwise (· < ·) := by
  induction l using List.reverseRecOn with
  | nil => simp [rebuildMap]
  | append_singleton l e ih =>
    rw [rebuildMap_append]
    exact keys_insertRef_pairwise ih e.key e.id

theorem rebuildMap_lookup (l : List (Entry K V)) (k : K) :
    lookupB (rebuildMap l) k =
      if (l.filter (fun e => e.key = k)).isEmpty then none
      else some ((l.filter (fun e => e.key = k)).map Entry.id) := by
  induction l using List.reverseRecOn with
  | nil => simp [rebuildMap, lookupB]
  | append_singleton l e ih =>
    rw [rebuildMap_append, lookupB_insertRef (rebuildMap_sorted l) _ _ k,
      List.filter_append, List.filter_cons]
    by_cases hk : k = e.key
    · subst hk
      rw [if_pos rfl, ih]
      by_cases he : (l.filter (fun x => x.key = e.key)).isEmpty
      · rw [if_pos he]
        rw [List.isEmpty_iff] at he
        simp [he]
      · rw [if_neg he]
        rw [List.isEmpty_iff] at he
        simp [he]
    · rw [if_neg hk]
      have hek : (decide (e.key = k)) = false := by
        simp
        exact fun h0 => hk h0.symm
      rw [hek]
      simp only [Bool.false_eq_true, if_false, List.filter_nil,
        List.append_nil]
      exact ih

theorem sorted_map_ext {m₁ m₂ : List (K × List Nat)}
    (h₁ : (m₁.map Prod.fst).Pairwise (· < ·))
    (h₂ : (m₂.map Prod.fst).Pairwise (· < ·))
    (h : ∀ k, lookupB m₁ k = lookupB m₂ k) : m₁ = m₂ := by
  induction m₁ generalizing m₂ with
  | nil =>
    cases m₂ with
    | nil => rfl
    | cons p r =>
      obtain ⟨k, b⟩ := p
      have := h k
      simp [lookupB] at this
  | cons p r ih =>
    obtain ⟨k₁, b₁⟩ := p
    cases m₂ with
    | nil =>
      have := h k₁
      simp [lookupB] at this
    | cons q r₂ =>
      obtain ⟨k₂, b₂⟩ := q
      simp only [List.map_cons, List.pairwise_cons] at h₁ h₂
      have hk : k₁ = k₂ := by
        by_contra hne
        have ha := h k₁
        have hb := h k₂
        rw [show lookupB ((k₁, b₁) :: r) k₁ = some b₁ by simp [lookupB]] at ha
        have h21 : lookupB ((k₂, b₂) :: r₂) k₁ = lookupB r₂ k₁ := by
          simp [lookupB, hne]
        rw [h21] at ha
        have hk21 : k₂ < k₁ := h₂.1 k₁ (List.mem_map.2
          ⟨(k₁, b₁), mem_of_lookupB ha.symm, rfl⟩)
        have hne2 : ¬ k₂ = k₁ := fun hh => hne hh.symm
        have h12 : lookupB ((k₁, b₁) :: r) k₂ = lookupB r k₂ := by
          simp [lookupB, hne2]
        rw [show lookupB ((k₂, b₂) :: r₂) k₂ = some b₂ by simp [lookupB]] at hb
        rw [h12] at hb
        have hk12 : k₁ < k₂ := h₁.1 k₂ (List.mem_map.2
          ⟨(k₂, b₂), mem_of_lookupB hb, rfl⟩)
        exact absurd hk21 (not_lt_of_gt hk12)
      subst hk
      have hbb : b₁ = b₂ := by
        have := h k₁
        simpa [lookupB] using this
      subst hbb
      have htail : ∀ k, lookupB r k = lookupB r₂ k := by
        intro k
        by_cases hk : k = k₁
        · subst hk
          have hr : lookupB r k = none := by
            rw [lookupB_eq_none]
            intro hmem
            exact absurd (h₁.1 k hmem) (lt_irrefl k)
          have hr₂ : lookupB r₂ k = none := by
            rw [lookupB_eq_none]
            intro hmem
            exact absurd (h₂.1 k hmem) (lt_irrefl k)
          rw [hr, hr₂]
        · have := h k
          simpa [lookupB, hk] using this
      rw [ih h₁.2 h₂.2 htail]

/-- Under the invariant, the copy constructor's rebuilt index equals the
original index: the deep clone is observably the identity. -/
theorem cloneC_eq {c : Container K V} (h : Inv c) : cloneC c = c := by
  unfold cloneC
  have hm : rebuildMap c.pair_list = c.iterator_list_map := by
    apply sorted_map_ext (rebuildMap_sorted _) h.sorted
    intro k
    rw [rebuildMap_lookup, h.lookup_char]
    rfl
  rw [hm]

/-! ### Claim C4: exception atomicity of push -/

/-- Outcomes of the three allocation points of `push` (lines 46-72): the
deep clone inside `aboutToModify`, `pair_list.push_back`, and the
key-bucket update performed inside the `try` block. -/
structure PushPlan where
  cloneOk : Bool
  listOk : Bool
  mapOk : Bool
deriving DecidableEq, Repr

/-- `push(k, v)` with explicit allocation failures.  `shared` says whether
the storage cell is shared with another instance, so that `aboutToModify`
deep-clones it first.  An `error` result carries the container that the
caller observes after the `copy_guard_t` has unwound:

* clone failure: nothing was mutated, the guard restores pointer and flag;
* `push_back` failure: `std::list::push_back` has the strong guarantee, so
  the (possibly cloned) cell is unchanged; the guard restores the old
  pointer, whose cell was never touched;
* bucket-update failure: the `catch` block pops the appended entry back
  off the queue (line 67) and rethrows; if a clone was made the guard
  additionally swaps the untouched original pointer back. -/
def pushF (shared : Bool) (p : PushPlan) (k : K) (v : V)
    (c : Container K V) : Except (Err × Container K V) (Container K V) :=
  if shared then
    if p.cloneOk = false then .error (.resourceExhaustion, c)
    else if p.listOk = false then .error (.resourceExhaustion, c)
    else if p.mapOk = false then .error (.resourceExhaustion, c)
    else .ok (pushC k v (cloneC c))
  else
    if p.listOk = false then .error (.resourceExhaustion, c)
    else if p.mapOk = false then
      .error (.resourceExhaustion,
        { pair_list := (c.pair_list ++ [(⟨c.nextId, k, v⟩ : Entry K V)]).dropLast
          iterator_list_map := c.iterator_list_map
          nextId := c.nextId })
    else .ok (pushC k v c)

/-- C4: if any allocation fails during `push` — the forced deep clone of
shared storage included — the error propagates as `resourceExhaustion` and
the caller observes the container exactly as before the call (same size,
counts, queue order and key order); when nothing fails the push succeeds
with its normal effect. -/
theorem C4_exception_atomicity {c : Container K V} (h : Inv c)
    (shared : Bool) (p : PushPlan) (k : K) (v : V) :
    (∀ e c', pushF shared p k v c = .error (e, c') →
      e = .resourceExhaustion ∧ c' = c ∧
      sizeC c' = sizeC c ∧ (∀ k', countC c' k' = countC c k') ∧
      toPairs c' = toPairs c ∧ keysC c' = keysC c) ∧
    ((∃ e c', pushF shared p k v c = .error (e, c')) ↔
      (shared = true ∧ p.cloneOk = false) ∨ p.listOk = false ∨
        p.mapOk = false) ∧
    (p.cloneOk = true → p.listOk = true → p.mapOk = true →
      pushF shared p k v c = .ok (pushC k v c)) := by
  have hdrop : (c.pair_list ++ [(⟨c.nextId, k, v⟩ : Entry K V)]).dropLast =
      c.pair_list := List.dropLast_concat
  have hrestore :
      ({ pair_list := (c.pair_list ++ [(⟨c.nextId, k, v⟩ : Entry K V)]).dropLast
         iterator_list_map := c.iterator_list_map
         nextId := c.nextId } : Container K V) = c := by
    rw [hdrop]
  refine ⟨?_, ?_, ?_⟩
  · intro e c' herr
    have hc' : e = .resourceExhaustion ∧ c' = c := by
      unfold pushF at herr
      cases shared with
      | true =>
        by_cases h1 : p.cloneOk = false
        · rw [if_pos rfl, if_pos h1] at herr
          cases herr
          exact ⟨rfl, rfl⟩
        · rw [if_pos rfl, if_neg h1] at herr
          by_cases h2 : p.listOk = false
          · rw [if_pos h2] at herr
            cases herr
            exact ⟨rfl, rfl⟩
          · rw [if_neg h2] at herr
            by_cases h3 : p.mapOk = false
            · rw [if_pos h3] at herr
              cases herr
              exact ⟨rfl, rfl⟩
            · rw [if_neg h3] at herr
              cases herr
      | false =>
        rw [if_neg (by simp)] at herr
        by_cases h2 : p.listOk = false
        · rw [if_pos h2] at herr
          cases herr
          exact ⟨rfl, rfl⟩
        · rw [if_neg h2] at herr
          by_cases h3 : p.mapOk = false
          · rw [if_pos h3] at herr
            cases herr
            exact ⟨rfl, hrestore⟩
          · rw [if_neg h3] at herr
            cases herr
    obtain ⟨he, hcc⟩ := hc'
    subst hcc
    exact ⟨he, rfl, rfl, fun _ => rfl, rfl, rfl⟩
  · constructor
    · rintro ⟨e, c', herr⟩
      unfold pushF at herr
      cases shared with
      | true =>
        rw [if_pos rfl] at herr
        by_cases h1 : p.cloneOk = false
        · exact Or.inl ⟨rfl, h1⟩
        · rw [if_neg h1] at herr
          by_cases h2 : p.listOk = false
          · exact Or.inr (Or.inl h2)
          · rw [if_neg h2] at herr
            by_cases h3 : p.mapOk = false
            · exact Or.inr (Or.inr h3)
            · rw [if_neg h3] at herr
              cases herr
      | false =>
        rw [if_neg (by simp)] at herr
        by_cases h2 : p.listOk = false
        · exact Or.inr (Or.inl h2)
        · rw [if_neg h2] at herr
          by_cases h3 : p.mapOk = false
          · exact Or.inr (Or.inr h3)
          · rw [if_neg h3] at herr
            cases herr
    · intro hfail
      unfold pushF
      cases shared with
      | true =>
        rw [if_pos rfl]
        rcases hfail with ⟨_, h1⟩ | h2 | h3
        · rw [if_pos h1]
          exact ⟨_, _, rfl⟩
        · by_cases h1 : p.cloneOk = false
          · rw [if_pos h1]
            exact ⟨_, _, rfl⟩
          · rw [if_neg h1, if_pos h2]
            exact ⟨_, _, rfl⟩
        · by_cases h1 : p.cloneOk = false
          · rw [if_pos h1]
            exact ⟨_, _, rfl⟩
          · rw [if_neg h1]
            by_cases h2 : p.listOk = false
            · rw [if_pos h2]
              exact ⟨_, _, rfl⟩
            · rw [if_neg h2, if_pos h3]
              exact ⟨_, _, rfl⟩
      | false =>
        rw [if_neg (by simp)]
        rcases hfail with ⟨hsh, _⟩ | h2 | h3
        · cases hsh
        · rw [if_pos h2]
          exact ⟨_, _, rfl⟩
        · by_cases h2 : p.listOk = false
          · rw [if_pos h2]
            exact ⟨_, _, rfl⟩
          · rw [if_neg h2, if_pos h3]
            exact ⟨_, _, rfl⟩
  · intro h1 h2 h3
    have h1' : ¬ p.cloneOk = false := by simp [h1]
    have h2' : ¬ p.listOk = false := by simp [h2]
    have h3' : ¬ p.mapOk = false := by simp [h3]
    unfold pushF
    cases shared with
    | true =>
      rw [if_pos rfl, if_neg h1', if_neg h2', if_neg h3', cloneC_eq h]
    | false =>
      rw [if_neg (by simp), if_neg h2', if_neg h3']

theorem C4_exception_atomicity_witness :
    pushF true ⟨false, true, true⟩ 3 4
        (pushAllC [(1, 1)] (emptyC : Container Nat Nat)) =
      .error (.resourceExhaustion, pushAllC [(1, 1)] emptyC) ∧
    pushF true ⟨true, true, true⟩ 3 4
        (pushAllC [(1, 1)] (emptyC : Container Nat Nat)) =
      .ok (pushC 3 4 (pushAllC [(1, 1)] emptyC)) := by
  have h := C4_exception_atomicity
    (by decide : Inv (pushAllC [(1, 1)] (emptyC : Container Nat Nat)))
    true ⟨false, true, true⟩ 3 4
  have h2 := C4_exception_atomicity
    (by decide : Inv (pushAllC [(1, 1)] (emptyC : Container Nat Nat)))
    true ⟨true, true, true⟩ 3 4
  exact ⟨by decide, h2.2.2 rfl rfl rfl⟩

/-! ### The sharing layer: instances, storage cells, copy-on-write
(lines 20-44, 358-372, 409-434) -/

/-- An instance handle (lines 433-434): the `shared_ptr` to the storage
cell (possibly null, e.g. after being moved from) and the `unshareable`
pinning flag. -/
structure Inst where
  ptr : Option Nat
  unshareable : Bool
deriving DecidableEq, Repr

/-- A world: every storage cell ever allocated (cells are never reused;
a cell no instance points to is unreachable garbage) and the live
instances, by index. -/
structure World (K V : Type) where
  heap : List (Container K V)
  insts : List Inst
deriving DecidableEq, Repr

/-- `dataPtr.use_count()` minus the guard's transient reference: the
number of instances pointing at the cell. -/
def shareCount (w : World K V) (cid : Nat) : Nat :=
  w.insts.countP (fun i => i.ptr = some cid)

def setInst (w : World K V) (i : Nat) (inst : Inst) : World K V :=
  { w with insts := w.insts.set i inst }

def setCell (w : World K V) (cid : Nat) (c : Container K V) : World K V :=
  { w with heap := w.heap.set cid c }

/-- What an instance observes through the read-only surface: the queue
and the distinct-key order of its cell (a null pointer observes an empty
container: `size`/`empty`/`count`/`k_begin` all check for null). -/
def obsOf (w : World K V) (i : Nat) : Option (List (K × V) × List K) :=
  match w.insts.get? i with
  | none => none
  | some inst =>
    match inst.ptr with
    | none => some ([], [])
    | some cid => (w.heap.get? cid).map (fun c => (toPairs c, keysC c))

/-- `aboutToModify` (lines 358-372): if the cell is shared with another
instance (`use_count() > 2` counting the guard's reference) and the
instance is not pinned, deep-clone the cell first; then set the pinned
flag to `markUnshareable`. -/
def aboutToModifyW (w : World K V) (i : Nat) (mark : Bool) : World K V :=
  match w.insts.get? i with
  | none => w
  | some inst =>
    match inst.ptr with
    | none => setInst w i ⟨none, mark⟩
    | some cid =>
      if 2 ≤ shareCount w cid ∧ inst.unshareable = false then
        match w.heap.get? cid with
        | none => setInst w i ⟨some cid, mark⟩
        | some cont =>
          setInst { w with heap := w.heap ++ [cloneC cont] } i
            ⟨some w.heap.length, mark⟩
      else setInst w i ⟨inst.ptr, mark⟩

/-- A structural mutation bracketed by `copy_guard_t`: capture the
instance state, run `aboutToModify(false)`, apply the body to the owned
cell; on success commit the new cell content, on failure restore the
captured pointer and flag (the guard's destructor). -/
def runGuarded (w : World K V) (i : Nat)
    (f : Container K V → Except Err (Container K V)) :
    World K V × Option Err :=
  match w.insts.get? i with
  | none => (w, none)
  | some inst₀ =>
    let w₁ := aboutToModifyW w i false
    match w₁.insts.get? i with
    | none => (w₁, none)
    | some inst₁ =>
      match inst₁.ptr with
      | none => (w₁, none)
      | some cid =>
        match w₁.heap.get? cid with
        | none => (w₁, none)
        | some cont =>
          match f cont with
          | .ok cont' => (setCell w₁ cid cont', none)
          | .error e => (setInst w₁ i inst₀, some e)

/-- Default construction (line 20): a fresh instance owning a fresh empty
cell. -/
def wDefault (w : World K V) : World K V :=
  { heap := w.heap ++ [emptyC]
    insts := w.insts ++ [⟨some w.heap.length, false⟩] }

/-- Copy construction (lines 22-28): share the cell unless the source is
pinned, in which case deep-clone it; the new instance is never pinned.
`none` models dereferencing a null `dataPtr` (`*other.dataPtr` when the
source is pinned but was moved from). -/
def wCopy (w : World K V) (src : Nat) : Option (World K V) :=
  match w.insts.get? src with
  | none => none
  | some inst =>
    if inst.unshareable = false then
      some { w with insts := w.insts ++ [⟨inst.ptr, false⟩] }
    else
      match inst.ptr with
      | none => none
      | some cid =>
        match w.heap.get? cid with
        | none => none
        | some cont =>
          some { heap := w.heap ++ [cloneC cont]
                 insts := w.insts ++ [⟨some w.heap.length, false⟩] }

/-- Move construction (line 30, `= default`): the new instance takes the
pointer and copies the flag; the source's pointer becomes null and its
flag keeps its value. -/
def wMove (w : World K V) (src : Nat) : World K V :=
  match w.insts.get? src with
  | none => w
  | some inst =>
    { heap := w.heap
      insts := (w.insts.set src ⟨none, inst.unshareable⟩) ++
        [⟨inst.ptr, inst.unshareable⟩] }

/-- Copy assignment (lines 34-44, by-value parameter): the parameter is a
copy of the source (deep clone when the source is pinned), the target
adopts its pointer and is marked not pinned. -/
def wAssign (w : World K V) (dst src : Nat) : Option (World K V) :=
  match w.insts.get? src with
  | none => none
  | some inst =>
    if inst.unshareable = false then
      some (setInst w dst ⟨inst.ptr, false⟩)
    else
      match inst.ptr with
      | none => none
      | some cid =>
        match w.heap.get? cid with
        | none => none
        | some cont =>
          some (setInst { w with heap := w.heap ++ [cloneC cont] }
            dst ⟨some w.heap.length, false⟩)

/-- `empty()` as seen from an instance (null pointer counts as empty). -/
def cellIsEmpty (w : World K V) (i : Nat) : Bool :=
  match w.insts.get? i with
  | none => true
  | some inst =>
    match inst.ptr with
    | none => true
    | some cid =>
      match w.heap.get? cid with
      | none => true
      | some cont => cont.pair_list.isEmpty

/-- `push` (lines 46-72) at the world level: allocate a cell if the
pointer is null (lines 47-49), then the guarded mutation. -/
def wPush (w : World K V) (i : Nat) (k : K) (v : V) : World K V :=
  match w.insts.get? i with
  | none => w
  | some inst =>
    match inst.ptr with
    | none =>
      (runGuarded
        (setInst { w with heap := w.heap ++ [emptyC] } i
          ⟨some w.heap.length, inst.unshareable⟩)
        i (fun c => .ok (pushC k v c))).1
    | some _ => (runGuarded w i (fun c => .ok (pushC k v c))).1

/-- `pop()` (lines 74-92) at the world level. -/
def wPop (w : World K V) (i : Nat) : World K V × Option Err :=
  if cellIsEmpty w i then (w, some .emptyCollection)
  else runGuarded w i (fun c => .ok (popC c))

/-- `pop(k)` (lines 94-116) at the world level: the emptiness check comes
before the guard; the key lookup happens after `aboutToModify` and throws
through the guard when the key is absent. -/
def wPopKey (w : World K V) (i : Nat) (k : K) : World K V × Option Err :=
  if cellIsEmpty w i then (w, some .keyNotFound)
  else runGuarded w i (fun c =>
    match lookupB c.iterator_list_map k with
    | none => .error .keyNotFound
    | some _ => .ok (popKeyC c k))

/-- `move_to_back(k)` (lines 118-137) at the world level. -/
def wMoveToBack (w : World K V) (i : Nat) (k : K) : World K V × Option Err :=
  if cellIsEmpty w i then (w, some .keyNotFound)
  else runGuarded w i (fun c =>
    match lookupB c.iterator_list_map k with
    | none => .error .keyNotFound
    | some _ => .ok (moveToBackC c k))

/-- `clear()` (lines 274-285) at the world level: returns early on a null
pointer — note that this early return skips the flag update. -/
def wClear (w : World K V) (i : Nat) : World K V :=
  match w.insts.get? i with
  | none => w
  | some inst =>
    match inst.ptr with
    | none => w
    | some _ => (runGuarded w i (fun c => .ok (clearC c))).1

/-- The world effect shared by the four mutable accessors
(lines 147-157, 167-178, 194-210, 226-242): after the emptiness check,
`aboutToModify(true)` pins the instance; `first`/`last` (`keyCheck =
some k`) then look the key up, and on failure throw through the guard,
which restores the captured pointer and flag.  On success the returned
cell id models the reference handed to the caller. -/
def wPinAccessor (w : World K V) (i : Nat) (keyCheck : Option K) :
    World K V × Option Nat :=
  if cellIsEmpty w i then (w, none)
  else
    match w.insts.get? i with
    | none => (w, none)
    | some inst₀ =>
      let w₁ := aboutToModifyW w i true
      match w₁.insts.get? i with
      | none => (w₁, none)
      | some inst₁ =>
        match inst₁.ptr with
        | none => (w₁, none)
        | some cid =>
          match keyCheck with
          | none => (w₁, some cid)
          | some k =>
            match w₁.heap.get? cid with
            | none => (w₁, none)
            | some cont =>
              match lookupB cont.iterator_list_map k with
              | some _ => (w₁, some cid)
              | none => (setInst w₁ i inst₀, none)

/-- Writing through the value reference returned by a mutable `front()`:
overwrites the front value of the referenced cell in place. -/
def wWriteFront (w : World K V) (cid : Nat) (v : V) : World K V :=
  match w.heap.get? cid with
  | none => w
  | some cont => setCell w cid (writeFrontC cont v)

/-- I4 plus basic well-formedness: every pointer is into the heap, every
cell satisfies the container invariant, and a pinned instance shares its
cell with no other instance. -/
def WInv (w : World K V) : Prop :=
  (∀ inst ∈ w.insts, ∀ cid, inst.ptr = some cid → cid < w.heap.length) ∧
  (∀ cont ∈ w.heap, Inv cont) ∧
  (∀ i j ii jj cid, i ≠ j → w.insts.get? i = some ii →
    w.insts.get? j = some jj → ii.unshareable = true →
    ii.ptr = some cid → jj.ptr ≠ some cid)

theorem WInv.ptrOk {w : World K V} (h : WInv w) :
    ∀ inst ∈ w.insts, ∀ cid, inst.ptr = some cid → cid < w.heap.length :=
  h.1

theorem WInv.cells {w : World K V} (h : WInv w) :
    ∀ cont ∈ w.heap, Inv cont := h.2.1

theorem WInv.pinned {w : World K V} (h : WInv w) :
    ∀ i j ii jj cid, i ≠ j → w.insts.get? i = some ii →
      w.insts.get? j = some jj → ii.unshareable = true →
      ii.ptr = some cid → jj.ptr ≠ some cid := h.2.2

/-! ### World lemmas -/

theorem two_le_countP {α : Type} {l : List α} {p : α → Bool} {i j : Nat}
    {a b : α} (hij : i ≠ j) (ha : l.get? i = some a) (hb : l.get? j = some b)
    (hpa : p a = true) (hpb : p b = true) : 2 ≤ l.countP p := by
  have hone : ∀ (t : List α) (c : α) (m : Nat), t.get? m = some c →
      p c = true → 1 ≤ t.countP p := by
    intro t c m hm hp
    have hmem : c ∈ t.filter p := List.mem_filter.2 ⟨List.get?_mem hm, hp⟩
    rw [List.countP_eq_length_filter]
    exact List.length_pos.2 (List.ne_nil_of_mem hmem)
  induction l generalizing i j with
  | nil => simp at ha
  | cons x t ih =>
    rw [List.countP_cons]
    cases i with
    | zero =>
      cases j with
      | zero => exact absurd rfl hij
      | succ m =>
        simp only [List.get?] at ha hb
        cases ha
        rw [if_pos hpa]
        have := hone t b m hb hpb
        omega
    | succ n =>
      cases j with
      | zero =>
        simp only [List.get?] at ha hb
        cases hb
        rw [if_pos hpb]
        have := hone t a n ha hpa
        omega
      | succ m =>
        simp only [List.get?] at ha hb
        have hnm : n ≠ m := fun h => hij (by rw [h])
        have := ih hnm ha hb
        omega

theorem set_get?_self {α : Type} {l : List α} {i : Nat} {a : α}
    (h : l.get? i = some a) : l.set i a = l := by
  induction l generalizing i with
  | nil => simp at h
  | cons x t ih =>
    cases i with
    | zero =>
      simp only [List.get?] at h
      cases h
      rfl
    | succ n =>
      simp only [List.get?] at h
      simp only [List.set]
      rw [ih h]

/-- With fewer than two holders, an instance pointing at a cell is its
only holder. -/
theorem no_other_holder {w : World K V} {i : Nat} {inst : Inst} {cid : Nat}
    (hi : w.insts.get? i = some inst) (hp : inst.ptr = some cid)
    (hlt : shareCount w cid < 2) :
    ∀ j jj, j ≠ i → w.insts.get? j = some jj → jj.ptr ≠ some cid := by
  intro j jj hne hj hjp
  have : 2 ≤ shareCount w cid := by
    unfold shareCount
    exact two_le_countP (fun h => hne (by rw [h])) hj hi
      (by simp [hjp]) (by simp [hp])
  omega

theorem obsOf_eq {w w' : World K V} {j : Nat}
    (hj : w'.insts.get? j = w.insts.get? j)
    (hcell : ∀ jj cid, w.insts.get? j = some jj → jj.ptr = some cid →
      w'.heap.get? cid = w.heap.get? cid) :
    obsOf w' j = obsOf w j := by
  unfold obsOf
  rw [hj]
  rcases h : w.insts.get? j with _ | jj
  · rfl
  · show (match jj.ptr with
        | none => some ([], [])
        | some cid => (w'.heap.get? cid).map (fun c => (toPairs c, keysC c))) =
      (match jj.ptr with
        | none => some ([], [])
        | some cid => (w.heap.get? cid).map (fun c => (toPairs c, keysC c)))
    rcases hp : jj.ptr with _ | cid
    · rfl
    · show (w'.heap.get? cid).map (fun c => (toPairs c, keysC c)) =
        (w.heap.get? cid).map (fun c => (toPairs c, keysC c))
      rw [hcell jj cid h hp]

/-- Effect of `aboutToModify` on an instance owning a valid cell: the
instance ends up pointing at a cell with the original content and bears
the `mark` flag; other instances and all pre-existing cells are
untouched; and no other instance points at the cell the instance now
owns (either because a private clone was just made, or because the count
showed no other holder, or because the instance was pinned and I4 held). -/
theorem aboutToModifyW_spec {w : World K V} (hw : WInv w) {i : Nat}
    {inst : Inst} {cid : Nat} {cont : Container K V} (mark : Bool)
    (hi : w.insts.get? i = some inst) (hp : inst.ptr = some cid)
    (hc : w.heap.get? cid = some cont) :
    ∃ cid',
      (aboutToModifyW w i mark).insts = w.insts.set i ⟨some cid', mark⟩ ∧
      (aboutToModifyW w i mark).heap.get? cid' = some cont ∧
      (∀ d, d < w.heap.length →
        (aboutToModifyW w i mark).heap.get? d = w.heap.get? d) ∧
      cid' < (aboutToModifyW w i mark).heap.length ∧
      w.heap.length ≤ (aboutToModifyW w i mark).heap.length ∧
      (∀ j jj, j ≠ i → w.insts.get? j = some jj → jj.ptr ≠ some cid') ∧
      ((aboutToModifyW w i mark).heap = w.heap ∨
        (aboutToModifyW w i mark).heap = w.heap ++ [cont]) := by
  have hcontInv : Inv cont := hw.cells cont (List.get?_mem hc)
  have hclone : cloneC cont = cont := cloneC_eq hcontInv
  have hcidlt : cid < w.heap.length := by
    obtain ⟨hlen, _⟩ := List.get?_eq_some.1 hc
    exact hlen
  simp only [aboutToModifyW, hi, hp, hc]
  by_cases hcond : 2 ≤ shareCount w cid ∧ inst.unshareable = false
  · rw [if_pos hcond]
    refine ⟨w.heap.length, ?_, ?_, ?_, ?_, ?_, ?_, ?_⟩
    · rfl
    · show (w.heap ++ [cloneC cont]).get? w.heap.length = some cont
      rw [List.get?_concat_length, hclone]
    · intro d hd
      exact List.get?_append hd
    · show w.heap.length < (w.heap ++ [cloneC cont]).length
      simp
    · show w.heap.length ≤ (w.heap ++ [cloneC cont]).length
      simp
    · intro j jj hne hj hjp
      have := hw.ptrOk jj (List.get?_mem hj) _ hjp
      exact absurd this (lt_irrefl _)
    · right
      show w.heap ++ [cloneC cont] = w.heap ++ [cont]
      rw [hclone]
  · rw [if_neg hcond]
    refine ⟨cid, ?_, hc, fun d _ => rfl, hcidlt, le_refl _, ?_, Or.inl rfl⟩
    · rfl
    · intro j jj hne hj hjp
      rcases Decidable.not_and_iff_or_not.1 hcond with hsh | hunsh
      · exact no_other_holder hi hp (Nat.lt_of_not_le hsh) j jj hne hj hjp
      · have hpin : inst.unshareable = true := by
          cases h0 : inst.unshareable
          · exact absurd h0 hunsh
          · rfl
        exact hw.pinned i j inst jj cid (fun h => hne h.symm) hi hj hpin hp hjp

/-- Full effect of a guarded structural mutation on a valid instance:
the world invariant is preserved; no other instance's observation
changes; on failure the guard leaves the instances exactly as before the
call and the caller's observation unchanged; on success the caller owns a
cell holding the mutated content, is unpinned, and shares it with
nobody. -/
theorem runGuarded_spec {w : World K V} (hw : WInv w) {i : Nat}
    {inst : Inst} {cid : Nat} {cont : Container K V}
    (hi : w.insts.get? i = some inst) (hp : inst.ptr = some cid)
    (hc : w.heap.get? cid = some cont)
    (f : Container K V → Except Err (Container K V))
    (hf : ∀ c', f cont = .ok c' → Inv c') :
    WInv (runGuarded w i f).1 ∧
    (∀ j, j ≠ i → obsOf (runGuarded w i f).1 j = obsOf w j) ∧
    (∀ e, f cont = .error e →
      (runGuarded w i f).2 = some e ∧
      (runGuarded w i f).1.insts = w.insts ∧
      obsOf (runGuarded w i f).1 i = obsOf w i) ∧
    (∀ c', f cont = .ok c' →
      (runGuarded w i f).2 = none ∧
      ∃ cid', (runGuarded w i f).1.insts.get? i = some ⟨some cid', false⟩ ∧
        (runGuarded w i f).1.heap.get? cid' = some c' ∧
        (∀ j jj, j ≠ i → (runGuarded w i f).1.insts.get? j = some jj →
          jj.ptr ≠ some cid')) := by
  obtain ⟨cid', hinsts, hcid', hold, hlt, hle, hexcl, hheap⟩ :=
    aboutToModifyW_spec hw false hi hp hc
  have hcontInv : Inv cont := hw.cells cont (List.get?_mem hc)
  have hcidlt : cid < w.heap.length := (List.get?_eq_some.1 hc).1
  have hi1 : (aboutToModifyW w i false).insts.get? i =
      some ⟨some cid', false⟩ := by
    rw [hinsts, List.get?_set_eq, hi]
    rfl
  have hkey : runGuarded w i f =
      match f cont with
      | .ok cont' => (setCell (aboutToModifyW w i false) cid' cont', none)
      | .error e => (setInst (aboutToModifyW w i false) i inst, some e) := by
    simp only [runGuarded, hi, hi1, hcid']
  have hcellsW₁ : ∀ cont' ∈ (aboutToModifyW w i false).heap, Inv cont' := by
    intro cont' hmem
    rcases hheap with hh | hh
    · rw [hh] at hmem
      exact hw.cells cont' hmem
    · rw [hh] at hmem
      rcases List.mem_append.1 hmem with hmem | hmem
      · exact hw.cells cont' hmem
      · rw [List.mem_singleton.1 hmem]
        exact hcontInv
  rcases hf0 : f cont with e0 | c0
  · -- the body failed: the guard restored the captured pointer and flag
    rw [hf0] at hkey
    have hw1insts : (setInst (aboutToModifyW w i false) i inst).insts =
        w.insts := by
      show (aboutToModifyW w i false).insts.set i inst = w.insts
      rw [hinsts, List.set_set]
      exact set_get?_self hi
    have hEheap : (setInst (aboutToModifyW w i false) i inst).heap =
        (aboutToModifyW w i false).heap := rfl
    have hobs : ∀ j, obsOf (setInst (aboutToModifyW w i false) i inst) j =
        obsOf w j := by
      intro j
      apply obsOf_eq
      · rw [hw1insts]
      · intro jj cd hj hjp
        rw [hEheap]
        exact hold cd (hw.ptrOk jj (List.get?_mem hj) cd hjp)
    refine ⟨?_, ?_, ?_, ?_⟩
    · rw [hkey]
      refine ⟨?_, ?_, ?_⟩
      · intro inst' hmem cd hptr
        rw [hw1insts] at hmem
        calc cd < w.heap.length := hw.ptrOk inst' hmem cd hptr
          _ ≤ (aboutToModifyW w i false).heap.length := hle
      · intro cont' hmem
        exact hcellsW₁ cont' hmem
      · intro a b aa bb cd hne ha hb hpin hptr
        rw [hw1insts] at ha hb
        exact hw.pinned a b aa bb cd hne ha hb hpin hptr
    · intro j _
      rw [hkey]
      exact hobs j
    · intro e he
      cases he
      rw [hkey]
      exact ⟨rfl, hw1insts, hobs i⟩
    · intro c' hc'
      cases hc'
  · -- the body succeeded: commit the new content
    rw [hf0] at hkey
    have hInvc0 : Inv c0 := hf c0 hf0
    have hOinsts : (setCell (aboutToModifyW w i false) cid' c0).insts =
        w.insts.set i ⟨some cid', false⟩ := hinsts
    have hOheap : (setCell (aboutToModifyW w i false) cid' c0).heap =
        (aboutToModifyW w i false).heap.set cid' c0 := rfl
    have hilen : i < w.insts.length := (List.get?_eq_some.1 hi).1
    have hgetO : ∀ j, j ≠ i →
        (setCell (aboutToModifyW w i false) cid' c0).insts.get? j =
          w.insts.get? j := by
      intro j hj
      rw [hOinsts]
      exact List.get?_set_ne _ _ (Ne.symm hj)
    have hgetOi : (setCell (aboutToModifyW w i false) cid' c0).insts.get? i =
        some ⟨some cid', false⟩ := by
      rw [hOinsts, List.get?_set_eq, hi]
      rfl
    refine ⟨?_, ?_, ?_, ?_⟩
    · rw [hkey]
      refine ⟨?_, ?_, ?_⟩
      · intro inst' hmem cd hptr
        rw [hOinsts] at hmem
        rw [hOheap, List.length_set]
        rcases List.mem_or_eq_of_mem_set hmem with hmem | heq
        · calc cd < w.heap.length := hw.ptrOk inst' hmem cd hptr
            _ ≤ (aboutToModifyW w i false).heap.length := hle
        · rw [heq] at hptr
          simp only at hptr
          cases hptr
          exact hlt
      · intro cont' hmem
        rw [hOheap] at hmem
        rcases List.mem_or_eq_of_mem_set hmem with hmem | heq
        · exact hcellsW₁ cont' hmem
        · rw [heq]
          exact hInvc0
      · intro a b aa bb cd hne ha hb hpin hptr
        by_cases hai : a = i
        · subst hai
          rw [hgetOi] at ha
          cases ha
          cases hpin
        · rw [hgetO a hai] at ha
          by_cases hbi : b = i
          · subst hbi
            rw [hgetOi] at hb
            cases hb
            simp only [ne_eq, Option.some.injEq]
            intro hcd
            exact hexcl a aa hai ha (by rw [hptr, hcd])
          · rw [hgetO b hbi] at hb
            exact hw.pinned a b aa bb cd hne ha hb hpin hptr
    · intro j hj
      rw [hkey]
      apply obsOf_eq
      · exact hgetO j hj
      · intro jj cd hjj hjp
        rw [hOheap]
        have hcdne : cd ≠ cid' := by
          intro h0
          exact hexcl j jj hj hjj (by rw [hjp, h0])
        rw [List.get?_set_ne _ _ (Ne.symm hcdne)]
        exact hold cd (hw.ptrOk jj (List.get?_mem hjj) cd hjp)
    · intro e he
      cases he
    · intro c' hc'
      cases hc'
      rw [hkey]
      refine ⟨rfl, cid', hgetOi, ?_, ?_⟩
      · rw [hOheap, List.get?_set_eq, hcid']
        rfl
      · intro j jj hj hjj
        rw [hgetO j hj] at hjj
        exact hexcl j jj hj hjj

theorem get?_append_cases {α : Type} (l : List α) (x : α) (j : Nat) :
    (l ++ [x]).get? j = if j < l.length then l.get? j
      else if j = l.length then some x else none := by
  by_cases h1 : j < l.length
  · rw [if_pos h1]
    exact List.get?_append h1
  · rw [if_neg h1]
    by_cases h2 : j = l.length
    · rw [if_pos h2, h2]
      exact List.get?_concat_length l x
    · rw [if_neg h2]
      rw [List.get?_append_right (Nat.le_of_not_lt h1)]
      have : 0 < j - l.length := by omega
      rcases h3 : j - l.length with _ | m
      · omega
      · simp [List.get?]

theorem not_cellIsEmpty_spec {w : World K V} {i : Nat}
    (h : cellIsEmpty w i = false) :
    ∃ inst cid cont, w.insts.get? i = some inst ∧ inst.ptr = some cid ∧
      w.heap.get? cid = some cont ∧ cont.pair_list.isEmpty = false := by
  unfold cellIsEmpty at h
  rcases hi : w.insts.get? i with _ | inst
  · simp only [hi] at h
    cases h
  · simp only [hi] at h
    rcases hptr : inst.ptr with _ | cid
    · simp only [hptr] at h
      cases h
    · simp only [hptr] at h
      rcases hc : w.heap.get? cid with _ | cont
      · simp only [hc] at h
        cases h
      · simp only [hc] at h
        exact ⟨inst, cid, cont, rfl, hptr, hc, h⟩

/-- Default construction preserves the world invariant and the
observations of existing instances. -/
theorem wDefault_spec {w : World K V} (hw : WInv w) :
    WInv (wDefault w) ∧
    (∀ j, j < w.insts.length → obsOf (wDefault w) j = obsOf w j) := by
  constructor
  · refine ⟨?_, ?_, ?_⟩
    · intro inst hmem cd hptr
      show cd < (w.heap ++ [emptyC]).length
      rcases List.mem_append.1 hmem with hmem | hmem
      · have := hw.ptrOk inst hmem cd hptr
        simp only [List.length_append, List.length_singleton]
        omega
      · rw [List.mem_singleton.1 hmem] at hptr
        simp only at hptr
        cases hptr
        simp
    · intro cont hmem
      rcases List.mem_append.1 hmem with hmem | hmem
      · exact hw.cells cont hmem
      · rw [List.mem_singleton.1 hmem]
        exact inv_emptyC
    · intro a b aa bb cd hne ha hb hpin hptr
      simp only [wDefault] at ha hb
      rw [get?_append_cases] at ha hb
      by_cases ha1 : a < w.insts.length
      · rw [if_pos ha1] at ha
        by_cases hb1 : b < w.insts.length
        · rw [if_pos hb1] at hb
          exact hw.pinned a b aa bb cd hne ha hb hpin hptr
        · rw [if_neg hb1] at hb
          by_cases hb2 : b = w.insts.length
          · rw [if_pos hb2] at hb
            cases hb
            simp only [ne_eq, Option.some.injEq]
            intro hcd
            have := hw.ptrOk aa (List.get?_mem ha) cd hptr
            omega
          · rw [if_neg hb2] at hb
            cases hb
      · rw [if_neg ha1] at ha
        by_cases ha2 : a = w.insts.length
        · rw [if_pos ha2] at ha
          cases ha
          cases hpin
        · rw [if_neg ha2] at ha
          cases ha
  · intro j hj
    apply obsOf_eq
    · show (w.insts ++ [(⟨some w.heap.length, false⟩ : Inst)]).get? j = w.insts.get? j
      exact List.get?_append hj
    · intro jj cd hjj hjp
      exact List.get?_append (hw.ptrOk jj (List.get?_mem hjj) cd hjp)

/-- Copy construction: the world invariant is preserved, no existing
instance's observation changes, and a pinned source is deep-cloned: the
new instance owns a fresh cell with equal content and is not pinned. -/
theorem wCopy_spec {w w' : World K V} (hw : WInv w) {src : Nat}
    (h : wCopy w src = some w') :
    WInv w' ∧
    (∀ j, j < w.insts.length → obsOf w' j = obsOf w j) ∧
    (∀ inst, w.insts.get? src = some inst → inst.unshareable = true →
      ∃ cid cont, inst.ptr = some cid ∧ w.heap.get? cid = some cont ∧
        w'.heap = w.heap ++ [cont] ∧
        w'.insts = w.insts ++ [⟨some w.heap.length, false⟩] ∧
        obsOf w' w.insts.length = some (toPairs cont, keysC cont)) := by
  unfold wCopy at h
  rcases hsrc : w.insts.get? src with _ | inst
  · simp only [hsrc] at h
    cases h
  · simp only [hsrc] at h
    by_cases hflag : inst.unshareable = false
    · rw [if_pos hflag] at h
      cases h
      refine ⟨⟨?_, ?_, ?_⟩, ?_, ?_⟩
      · intro inst' hmem cd hptr
        rcases List.mem_append.1 hmem with hmem | hmem
        · exact hw.ptrOk inst' hmem cd hptr
        · rw [List.mem_singleton.1 hmem] at hptr
          simp only at hptr
          exact hw.ptrOk inst (List.get?_mem hsrc) cd hptr
      · exact hw.cells
      · intro a b aa bb cd hne ha hb hpin hptr
        simp only at ha hb
        rw [get?_append_cases] at ha hb
        by_cases ha1 : a < w.insts.length
        · rw [if_pos ha1] at ha
          by_cases hb1 : b < w.insts.length
          · rw [if_pos hb1] at hb
            exact hw.pinned a b aa bb cd hne ha hb hpin hptr
          · rw [if_neg hb1] at hb
            by_cases hb2 : b = w.insts.length
            · rw [if_pos hb2] at hb
              cases hb
              simp only [ne_eq, Option.some.injEq]
              intro hcd
              have hasrc : a ≠ src := by
                intro h0
                rw [h0, hsrc] at ha
                cases ha
                rw [hpin] at hflag
                cases hflag
              exact hw.pinned a src aa inst cd hasrc ha hsrc hpin hptr
                (by rw [hcd])
            · rw [if_neg hb2] at hb
              cases hb
        · rw [if_neg ha1] at ha
          by_cases ha2 : a = w.insts.length
          · rw [if_pos ha2] at ha
            cases ha
            cases hpin
          · rw [if_neg ha2] at ha
            cases ha
      · intro j hj
        apply obsOf_eq
        · exact List.get?_append hj
        · intro jj cd hjj hjp
          rfl
      · intro inst0 hinst0 hpin0
        cases hinst0
        rw [hpin0] at hflag
        cases hflag
    · rw [if_neg hflag] at h
      have hpin : inst.unshareable = true := by
        cases h0 : inst.unshareable
        · exact absurd h0 hflag
        · rfl
      rcases hptr : inst.ptr with _ | cid
      · simp only [hptr] at h
        cases h
      · simp only [hptr] at h
        rcases hcell : w.heap.get? cid with _ | cont
        · simp only [hcell] at h
          cases h
        · simp only [hcell, Option.some.injEq] at h
          cases h
          have hcontInv : Inv cont := hw.cells cont (List.get?_mem hcell)
          have hclone : cloneC cont = cont := cloneC_eq hcontInv
          have hcidlt : cid < w.heap.length := (List.get?_eq_some.1 hcell).1
          refine ⟨⟨?_, ?_, ?_⟩, ?_, ?_⟩
          · intro inst' hmem cd hptr'
            simp only [List.length_append, List.length_singleton]
            rcases List.mem_append.1 hmem with hmem | hmem
            · have := hw.ptrOk inst' hmem cd hptr'
              omega
            · rw [List.mem_singleton.1 hmem] at hptr'
              simp only at hptr'
              cases hptr'
              omega
          · intro cont' hmem
            rcases List.mem_append.1 hmem with hmem | hmem
            · exact hw.cells cont' hmem
            · rw [List.mem_singleton.1 hmem, hclone]
              exact hcontInv
          · intro a b aa bb cd hne ha hb hpin' hptr'
            simp only at ha hb
            rw [get?_append_cases] at ha hb
            by_cases ha1 : a < w.insts.length
            · rw [if_pos ha1] at ha
              by_cases hb1 : b < w.insts.length
              · rw [if_pos hb1] at hb
                exact hw.pinned a b aa bb cd hne ha hb hpin' hptr'
              · rw [if_neg hb1] at hb
                by_cases hb2 : b = w.insts.length
                · rw [if_pos hb2] at hb
                  cases hb
                  simp only [ne_eq, Option.some.injEq]
                  intro hcd
                  have := hw.ptrOk aa (List.get?_mem ha) cd hptr'
                  omega
                · rw [if_neg hb2] at hb
                  cases hb
            · rw [if_neg ha1] at ha
              by_cases ha2 : a = w.insts.length
              · rw [if_pos ha2] at ha
                cases ha
                cases hpin'
              · rw [if_neg ha2] at ha
                cases ha
          · intro j hj
            apply obsOf_eq
            · exact List.get?_append hj
            · intro jj cd hjj hjp
              exact List.get?_append (hw.ptrOk jj (List.get?_mem hjj) cd hjp)
          · intro inst0 hinst0 _
            cases hinst0
            refine ⟨cid, cont, hptr, hcell, by rw [hclone], rfl, ?_⟩
            unfold obsOf
            have h1 : (w.insts ++ [(⟨some w.heap.length, false⟩ : Inst)]).get?
                w.insts.length = some ⟨some w.heap.length, false⟩ :=
              List.get?_concat_length _ _
            simp only [h1]
            have h2 : (w.heap ++ [cloneC cont]).get? w.heap.length =
                some cont := by
              rw [List.get?_concat_length, hclone]
            rw [h2]
            rfl

/-- Move construction: the new instance takes over pointer and flag, the
source keeps its flag with a null pointer; invariant and other
observations are preserved. -/
theorem wMove_spec {w : World K V} (hw : WInv w) (src : Nat) :
    WInv (wMove w src) ∧
    (∀ j, j < w.insts.length → j ≠ src →
      obsOf (wMove w src) j = obsOf w j) ∧
    (∀ inst, w.insts.get? src = some inst →
      (wMove w src).insts.get? src = some ⟨none, inst.unshareable⟩ ∧
      (wMove w src).insts.get? w.insts.length =
        some ⟨inst.ptr, inst.unshareable⟩) := by
  unfold wMove
  rcases hsrc : w.insts.get? src with _ | inst
  · refine ⟨hw, fun j _ _ => rfl, ?_⟩
    intro inst0 h0
    cases h0
  · have hsrclt : src < w.insts.length := (List.get?_eq_some.1 hsrc).1
    have hget : ∀ j, ((w.insts.set src (⟨none, inst.unshareable⟩ : Inst)) ++
        [(⟨inst.ptr, inst.unshareable⟩ : Inst)]).get? j =
        if j = src then some (⟨none, inst.unshareable⟩ : Inst)
        else if j < w.insts.length then w.insts.get? j
        else if j = w.insts.length then
          some (⟨inst.ptr, inst.unshareable⟩ : Inst)
        else none := by
      intro j
      rw [get?_append_cases]
      rw [List.length_set]
      by_cases h1 : j = src
      · subst h1
        rw [if_pos hsrclt, if_pos rfl, List.get?_set_eq, hsrc]
        rfl
      · rw [if_neg h1]
        by_cases h2 : j < w.insts.length
        · rw [if_pos h2, if_pos h2, List.get?_set_ne _ _ (Ne.symm h1)]
        · rw [if_neg h2, if_neg h2]
    refine ⟨⟨?_, hw.cells, ?_⟩, ?_, ?_⟩
    · intro inst' hmem cd hptr
      show cd < w.heap.length
      rcases List.mem_append.1 hmem with hmem | hmem
      · rcases List.mem_or_eq_of_mem_set hmem with hmem | heq
        · exact hw.ptrOk inst' hmem cd hptr
        · rw [heq] at hptr
          cases hptr
      · rw [List.mem_singleton.1 hmem] at hptr
        simp only at hptr
        exact hw.ptrOk inst (List.get?_mem hsrc) cd hptr
    · intro a b aa bb cd hne ha hb hpin hptr
      simp only at ha hb
      rw [hget] at ha hb
      by_cases ha1 : a = src
      · rw [if_pos ha1] at ha
        cases ha
        simp only at hptr
        cases hptr
      · rw [if_neg ha1] at ha
        by_cases ha2 : a < w.insts.length
        · rw [if_pos ha2] at ha
          -- a is an untouched old instance, pinned at cd
          by_cases hb1 : b = src
          · rw [if_pos hb1] at hb
            cases hb
            simp only [ne_eq, Option.some.injEq]
            intro hcd
            cases hcd
          · rw [if_neg hb1] at hb
            by_cases hb2 : b < w.insts.length
            · rw [if_pos hb2] at hb
              exact hw.pinned a b aa bb cd hne ha hb hpin hptr
            · rw [if_neg hb2] at hb
              by_cases hb3 : b = w.insts.length
              · rw [if_pos hb3] at hb
                cases hb
                simp only [ne_eq]
                exact hw.pinned a src aa inst cd ha1 ha hsrc hpin hptr
              · rw [if_neg hb3] at hb
                cases hb
        · rw [if_neg ha2] at ha
          by_cases ha3 : a = w.insts.length
          · rw [if_pos ha3] at ha
            cases ha
            -- the new instance is pinned: it inherited src's pin and cell
            simp only at hpin hptr
            by_cases hb1 : b = src
            · rw [if_pos hb1] at hb
              cases hb
              simp only [ne_eq, Option.some.injEq]
              intro hcd
              cases hcd
            · rw [if_neg hb1] at hb
              by_cases hb2 : b < w.insts.length
              · rw [if_pos hb2] at hb
                exact hw.pinned src b inst bb cd (fun h => hb1 h.symm)
                  hsrc hb hpin hptr
              · rw [if_neg hb2] at hb
                by_cases hb3 : b = w.insts.length
                · exact absurd (ha3.trans hb3.symm) hne
                · rw [if_neg hb3] at hb
                  cases hb
          · rw [if_neg ha3] at ha
            cases ha
    · intro j hjlt hjsrc
      apply obsOf_eq
      · show ((w.insts.set src (⟨none, inst.unshareable⟩ : Inst)) ++
          [(⟨inst.ptr, inst.unshareable⟩ : Inst)]).get? j = w.insts.get? j
        rw [hget, if_neg hjsrc, if_pos hjlt]
      · intro jj cd hjj hjp
        rfl
    · intro inst0 h0
      cases h0
      constructor
      · show ((w.insts.set src (⟨none, inst.unshareable⟩ : Inst)) ++
          [(⟨inst.ptr, inst.unshareable⟩ : Inst)]).get? src = _
        rw [hget, if_pos rfl]
      · show ((w.insts.set src (⟨none, inst.unshareable⟩ : Inst)) ++
          [(⟨inst.ptr, inst.unshareable⟩ : Inst)]).get? w.insts.length = _
        rw [hget]
        rw [if_neg (by omega : ¬ w.insts.length = src),
          if_neg (lt_irrefl _), if_pos rfl]

/-- Copy assignment: the world invariant is preserved, no other
instance's observation changes, the target ends up unpinned, and a pinned
source is deep-cloned into a fresh cell for the target. -/
theorem wAssign_spec {w w' : World K V} (hw : WInv w) {dst src : Nat}
    (h : wAssign w dst src = some w') :
    WInv w' ∧
    (∀ j, j ≠ dst → obsOf w' j = obsOf w j) ∧
    (∀ inst, w.insts.get? src = some inst → dst < w.insts.length →
      ∃ p, w'.insts.get? dst = some ⟨p, false⟩) ∧
    (∀ inst, w.insts.get? src = some inst → inst.unshareable = true →
      dst < w.insts.length →
      ∃ cid cont, inst.ptr = some cid ∧ w.heap.get? cid = some cont ∧
        w'.insts.get? dst = some ⟨some w.heap.length, false⟩ ∧
        obsOf w' dst = some (toPairs cont, keysC cont)) := by
  unfold wAssign at h
  rcases hsrc : w.insts.get? src with _ | inst
  · simp only [hsrc] at h
    cases h
  · simp only [hsrc] at h
    by_cases hflag : inst.unshareable = false
    · rw [if_pos hflag] at h
      cases h
      have hptrOk : ∀ cd, inst.ptr = some cd → cd < w.heap.length :=
        hw.ptrOk inst (List.get?_mem hsrc)
      refine ⟨⟨?_, hw.cells, ?_⟩, ?_, ?_, ?_⟩
      · intro inst' hmem cd hptr
        rcases List.mem_or_eq_of_mem_set hmem with hmem | heq
        · exact hw.ptrOk inst' hmem cd hptr
        · rw [heq] at hptr
          simp only at hptr
          exact hptrOk cd hptr
      · intro a b aa bb cd hne ha hb hpin hptr
        have hred : (setInst w dst (⟨inst.ptr, false⟩ : Inst)).insts =
            w.insts.set dst ⟨inst.ptr, false⟩ := rfl
        rw [hred] at ha hb
        by_cases ha1 : a = dst
        · subst ha1
          rcases List.get?_eq_some.1 ha with ⟨halt, _⟩
          rw [List.length_set] at halt
          rw [List.get?_set_eq, (List.get?_eq_get halt)] at ha
          simp only [Option.map_some, Option.some.injEq] at ha
          rw [← ha] at hpin
          cases hpin
        · rw [List.get?_set_ne _ _ (Ne.symm ha1)] at ha
          by_cases hb1 : b = dst
          · subst hb1
            rcases List.get?_eq_some.1 hb with ⟨hblt, _⟩
            rw [List.length_set] at hblt
            rw [List.get?_set_eq, (List.get?_eq_get hblt)] at hb
            simp only [Option.map_some, Option.some.injEq] at hb
            rw [← hb]
            simp only [ne_eq, Option.some.injEq]
            intro hcd
            have hasrc : a ≠ src := by
              intro h0
              rw [h0, hsrc] at ha
              cases ha
              rw [hpin] at hflag
              cases hflag
            exact hw.pinned a src aa inst cd hasrc ha hsrc hpin hptr
              (by rw [hcd])
          · rw [List.get?_set_ne _ _ (Ne.symm hb1)] at hb
            exact hw.pinned a b aa bb cd hne ha hb hpin hptr
      · intro j hj
        apply obsOf_eq
        · exact List.get?_set_ne _ _ (Ne.symm hj)
        · intro jj cd hjj hjp
          rfl
      · intro inst0 h0 hdlt
        cases h0
        refine ⟨inst.ptr, ?_⟩
        show (w.insts.set dst ⟨inst.ptr, false⟩).get? dst = _
        rw [List.get?_set_eq, (List.get?_eq_get hdlt)]
        rfl
      · intro inst0 h0 hpin0 _
        cases h0
        rw [hpin0] at hflag
        cases hflag
    · rw [if_neg hflag] at h
      have hpin : inst.unshareable = true := by
        cases h0 : inst.unshareable
        · exact absurd h0 hflag
        · rfl
      rcases hptr : inst.ptr with _ | cid
      · simp only [hptr] at h
        cases h
      · simp only [hptr] at h
        rcases hcell : w.heap.get? cid with _ | cont
        · simp only [hcell] at h
          cases h
        · simp only [hcell, Option.some.injEq] at h
          cases h
          have hcontInv : Inv cont := hw.cells cont (List.get?_mem hcell)
          have hclone : cloneC cont = cont := cloneC_eq hcontInv
          have hnew : ∀ j, (setInst { w with heap := w.heap ++ [cloneC cont] }
              dst ⟨some w.heap.length, false⟩).insts.get? j =
              (w.insts.set dst ⟨some w.heap.length, false⟩).get? j :=
            fun _ => rfl
          refine ⟨⟨?_, ?_, ?_⟩, ?_, ?_, ?_⟩
          · intro inst' hmem cd hptr'
            show cd < (w.heap ++ [cloneC cont]).length
            simp only [List.length_append, List.length_singleton]
            rcases List.mem_or_eq_of_mem_set hmem with hmem | heq
            · have := hw.ptrOk inst' hmem cd hptr'
              omega
            · rw [heq] at hptr'
              simp only at hptr'
              cases hptr'
              omega
          · intro cont' hmem
            rcases List.mem_append.1 hmem with hmem | hmem
            · exact hw.cells cont' hmem
            · rw [List.mem_singleton.1 hmem, hclone]
              exact hcontInv
          · intro a b aa bb cd hne ha hb hpin' hptr'
            rw [hnew] at ha hb
            by_cases ha1 : a = dst
            · subst ha1
              rcases List.get?_eq_some.1 ha with ⟨halt, _⟩
              rw [List.length_set] at halt
              rw [List.get?_set_eq, (List.get?_eq_get halt)] at ha
              simp only [Option.map_some, Option.some.injEq] at ha
              rw [← ha] at hpin'
              cases hpin'
            · rw [List.get?_set_ne _ _ (Ne.symm ha1)] at ha
              by_cases hb1 : b = dst
              · subst hb1
                rcases List.get?_eq_some.1 hb with ⟨hblt, _⟩
                rw [List.length_set] at hblt
                rw [List.get?_set_eq, (List.get?_eq_get hblt)] at hb
                simp only [Option.map_some, Option.some.injEq] at hb
                rw [← hb]
                simp only [ne_eq, Option.some.injEq]
                intro hcd
                have := hw.ptrOk aa (List.get?_mem ha) cd hptr'
                omega
              · rw [List.get?_set_ne _ _ (Ne.symm hb1)] at hb
                exact hw.pinned a b aa bb cd hne ha hb hpin' hptr'
          · intro j hj
            apply obsOf_eq
            · rw [hnew]
              exact List.get?_set_ne _ _ (Ne.symm hj)
            · intro jj cd hjj hjp
              show (w.heap ++ [cloneC cont]).get? cd = w.heap.get? cd
              exact List.get?_append (hw.ptrOk jj (List.get?_mem hjj) cd hjp)
          · intro inst0 h0 hdlt
            cases h0
            refine ⟨some w.heap.length, ?_⟩
            rw [hnew, List.get?_set_eq, (List.get?_eq_get hdlt)]
            rfl
          · intro inst0 h0 _ hdlt
            cases h0
            refine ⟨cid, cont, hptr, hcell, ?_, ?_⟩
            · rw [hnew, List.get?_set_eq, (List.get?_eq_get hdlt)]
              rfl
            · unfold obsOf
              have h1 : (setInst { w with heap := w.heap ++ [cloneC cont] }
                  dst ⟨some w.heap.length, false⟩).insts.get? dst =
                  some ⟨some w.heap.length, false⟩ := by
                rw [hnew, List.get?_set_eq, (List.get?_eq_get hdlt)]
                rfl
              simp only [h1]
              have h2 : (w.heap ++ [cloneC cont]).get? w.heap.length =
                  some cont := by
                rw [List.get?_concat_length, hclone]
              show Option.map _ ((w.heap ++ [cloneC cont]).get? w.heap.length) = _
              rw [h2]
              rfl

theorem cell_of_ptr {w : World K V} (hw : WInv w) {i : Nat} {inst : Inst}
    {cid : Nat} (hi : w.insts.get? i = some inst) (hptr : inst.ptr = some cid) :
    ∃ cont, w.heap.get? cid = some cont := by
  have hlt := hw.ptrOk inst (List.get?_mem hi) cid hptr
  rcases h0 : w.heap.get? cid with _ | cont
  · rw [List.get?_eq_none] at h0
    omega
  · exact ⟨cont, rfl⟩

/-- `push` preserves the invariant and every other instance's observation,
and leaves the calling instance unpinned. -/
theorem wPush_spec {w : World K V} (hw : WInv w) (i : Nat) (k : K) (v : V) :
    WInv (wPush w i k v) ∧
    (∀ j, j ≠ i → obsOf (wPush w i k v) j = obsOf w j) ∧
    (∀ inst, w.insts.get? i = some inst →
      ∃ cid', (wPush w i k v).insts.get? i = some ⟨some cid', false⟩) := by
  unfold wPush
  rcases hi : w.insts.get? i with _ | inst
  · simp only [hi]
    refine ⟨hw, ?_, ?_⟩ <;> simp
  · simp only [hi]
    have hilt : i < w.insts.length := (List.get?_eq_some.1 hi).1
    rcases hptr : inst.ptr with _ | cid
    · simp only [hptr]
      -- null pointer: allocate a fresh empty cell first (lines 47-49)
      have hw₀ : WInv (setInst { w with heap := w.heap ++ [emptyC] } i
          ⟨some w.heap.length, inst.unshareable⟩) := by
        refine ⟨?_, ?_, ?_⟩
        · intro inst' hmem cd hptr'
          show cd < (w.heap ++ [emptyC]).length
          simp only [List.length_append, List.length_singleton]
          rcases List.mem_or_eq_of_mem_set hmem with hmem | heq
          · have := hw.ptrOk inst' hmem cd hptr'
            omega
          · rw [heq] at hptr'
            simp only at hptr'
            cases hptr'
            omega
        · intro cont hmem
          rcases List.mem_append.1 hmem with hmem | hmem
          · exact hw.cells cont hmem
          · rw [List.mem_singleton.1 hmem]
            exact inv_emptyC
        · intro a b aa bb cd hne ha hb hpin hptr'
          have hred : (setInst { w with heap := w.heap ++ [emptyC] } i
              ⟨some w.heap.length, inst.unshareable⟩).insts =
              w.insts.set i ⟨some w.heap.length, inst.unshareable⟩ := rfl
          rw [hred] at ha hb
          by_cases ha1 : a = i
          · rw [ha1] at ha
            rw [List.get?_set_eq, (List.get?_eq_get hilt)] at ha
            simp only [Option.map_some, Option.some.injEq] at ha
            rw [← ha] at hptr'
            simp only at hptr'
            cases hptr'
            by_cases hb1 : b = i
            · exact absurd (ha1.trans hb1.symm) hne
            · rw [List.get?_set_ne _ _ (Ne.symm hb1)] at hb
              intro hcd
              have := hw.ptrOk bb (List.get?_mem hb) _ hcd
              omega
          · rw [List.get?_set_ne _ _ (Ne.symm ha1)] at ha
            by_cases hb1 : b = i
            · subst hb1
              rw [List.get?_set_eq, (List.get?_eq_get hilt)] at hb
              simp only [Option.map_some, Option.some.injEq] at hb
              rw [← hb]
              simp only [ne_eq, Option.some.injEq]
              intro hcd
              have := hw.ptrOk aa (List.get?_mem ha) cd hptr'
              omega
            · rw [List.get?_set_ne _ _ (Ne.symm hb1)] at hb
              exact hw.pinned a b aa bb cd hne ha hb hpin hptr'
      have hi₀ : (setInst { w with heap := w.heap ++ [emptyC] } i
          ⟨some w.heap.length, inst.unshareable⟩).insts.get? i =
          some ⟨some w.heap.length, inst.unshareable⟩ := by
        show (w.insts.set i _).get? i = _
        rw [List.get?_set_eq, (List.get?_eq_get hilt)]
        rfl
      have hc₀ : (setInst { w with heap := w.heap ++ [emptyC] } i
          ⟨some w.heap.length, inst.unshareable⟩).heap.get? w.heap.length =
          some emptyC := List.get?_concat_length _ _
      obtain ⟨hWI, hobs, _, hok⟩ := runGuarded_spec hw₀ hi₀ rfl hc₀
        (fun c => .ok (pushC k v c))
        (fun c' hc' => by
          cases hc'
          exact inv_pushC inv_emptyC k v)
      refine ⟨hWI, ?_, ?_⟩
      · intro j hj
        rw [hobs j hj]
        apply obsOf_eq
        · show (w.insts.set i _).get? j = w.insts.get? j
          exact List.get?_set_ne _ _ (Ne.symm hj)
        · intro jj cd hjj hjp
          exact List.get?_append (hw.ptrOk jj (List.get?_mem hjj) cd hjp)
      · intro inst0 _
        obtain ⟨-, cid', hgi, -, -⟩ := hok _ rfl
        exact ⟨cid', hgi⟩
    · simp only [hptr]
      obtain ⟨cont, hcont⟩ := cell_of_ptr hw hi hptr
      have hcontInv : Inv cont := hw.cells cont (List.get?_mem hcont)
      obtain ⟨hWI, hobs, _, hok⟩ := runGuarded_spec hw hi hptr hcont
        (fun c => .ok (pushC k v c))
        (fun c' hc' => by
          cases hc'
          exact inv_pushC hcontInv k v)
      refine ⟨hWI, hobs, ?_⟩
      intro inst0 _
      obtain ⟨-, cid', hgi, -, -⟩ := hok _ rfl
      exact ⟨cid', hgi⟩

theorem wGuardedOp_spec {w : World K V} (hw : WInv w) {i : Nat}
    (hne : cellIsEmpty w i = false)
    (f : Container K V → Except Err (Container K V))
    (hf : ∀ cont, Inv cont → ∀ c', f cont = .ok c' → Inv c') :
    ∃ cont, (∃ inst cid, w.insts.get? i = some inst ∧ inst.ptr = some cid ∧
      w.heap.get? cid = some cont ∧ cont.pair_list.isEmpty = false) ∧
    WInv (runGuarded w i f).1 ∧
    (∀ j, j ≠ i → obsOf (runGuarded w i f).1 j = obsOf w j) ∧
    (∀ e, f cont = .error e → (runGuarded w i f).2 = some e ∧
      (runGuarded w i f).1.insts = w.insts ∧
      obsOf (runGuarded w i f).1 i = obsOf w i) ∧
    (∀ c', f cont = .ok c' → (runGuarded w i f).2 = none ∧
      ∃ cid', (runGuarded w i f).1.insts.get? i = some ⟨some cid', false⟩ ∧
        (runGuarded w i f).1.heap.get? cid' = some c' ∧
        (∀ j jj, j ≠ i → (runGuarded w i f).1.insts.get? j = some jj →
          jj.ptr ≠ some cid')) := by
  obtain ⟨inst, cid, cont, hi, hptr, hc, hemp⟩ := not_cellIsEmpty_spec hne
  have hcontInv := hw.cells cont (List.get?_mem hc)
  obtain ⟨h1, h2, h3, h4⟩ := runGuarded_spec hw hi hptr hc f (hf cont hcontInv)
  exact ⟨cont, ⟨inst, cid, hi, hptr, hc, hemp⟩, h1, h2, h3, h4⟩

/-- `pop()` preserves the invariant, other instances' observations, and on
success leaves the caller unpinned; on failure (empty) nothing changes. -/
theorem wPop_spec {w : World K V} (hw : WInv w) (i : Nat) :
    WInv (wPop w i).1 ∧
    (∀ j, j ≠ i → obsOf (wPop w i).1 j = obsOf w j) ∧
    ((wPop w i).2 = none →
      ∃ cid', (wPop w i).1.insts.get? i = some ⟨some cid', false⟩) ∧
    (∀ e, (wPop w i).2 = some e → obsOf (wPop w i).1 i = obsOf w i) := by
  unfold wPop
  by_cases hemp : cellIsEmpty w i
  · rw [if_pos hemp]
    refine ⟨hw, fun j _ => rfl, ?_, fun e _ => rfl⟩
    intro h0
    simp at h0
  · have hne : cellIsEmpty w i = false := by simpa using hemp
    rw [if_neg hemp]
    obtain ⟨cont, _, h1, h2, _, h4⟩ := wGuardedOp_spec hw hne
      (fun c => .ok (popC c))
      (fun cont hInv c' hc' => by
        cases hc'
        exact inv_popC hInv)
    obtain ⟨hnone, cid', hgi, _, _⟩ := h4 _ rfl
    refine ⟨h1, h2, fun _ => ⟨cid', hgi⟩, ?_⟩
    intro e he
    rw [hnone] at he
    cases he

/-- `pop(k)` preserves the invariant and the others' observations; when it
throws, the guard leaves the instances and the caller's observation
exactly as before; on success the caller is unpinned. -/
theorem wPopKey_spec {w : World K V} (hw : WInv w) (i : Nat) (k : K) :
    WInv (wPopKey w i k).1 ∧
    (∀ j, j ≠ i → obsOf (wPopKey w i k).1 j = obsOf w j) ∧
    (∀ e, (wPopKey w i k).2 = some e →
      (wPopKey w i k).1.insts = w.insts ∧
      obsOf (wPopKey w i k).1 i = obsOf w i) ∧
    ((wPopKey w i k).2 = none →
      ∃ cid', (wPopKey w i k).1.insts.get? i = some ⟨some cid', false⟩) := by
  unfold wPopKey
  by_cases hemp : cellIsEmpty w i
  · rw [if_pos hemp]
    refine ⟨hw, fun j _ => rfl, fun e _ => ⟨rfl, rfl⟩, ?_⟩
    intro h0
    simp at h0
  · have hne : cellIsEmpty w i = false := by simpa using hemp
    rw [if_neg hemp]
    obtain ⟨cont, _, h1, h2, h3, h4⟩ := wGuardedOp_spec hw hne
      (fun c => match lookupB c.iterator_list_map k with
        | none => .error .keyNotFound
        | some _ => .ok (popKeyC c k))
      (fun cont hInv c' hc' => by
        rcases hl : lookupB cont.iterator_list_map k with _ | b
        · simp only [hl] at hc'
          cases hc'
        · simp only [hl] at hc'
          cases hc'
          exact inv_popKeyC hInv k)
    rcases hl : lookupB cont.iterator_list_map k with _ | b
    · obtain ⟨hsome, hinsts, hobs⟩ := h3 Err.keyNotFound (by rw [hl])
      refine ⟨h1, h2, ?_, ?_⟩
      · intro e _
        exact ⟨hinsts, hobs⟩
      · intro h0
        rw [hsome] at h0
        cases h0
    · obtain ⟨hnone, cid', hgi, _, _⟩ := h4 _ (by rw [hl])
      refine ⟨h1, h2, ?_, fun _ => ⟨cid', hgi⟩⟩
      intro e he
      rw [hnone] at he
      cases he

/-- `move_to_back(k)` preserves the invariant and the others'
observations; when it throws the guard restores everything; on success
the caller is unpinned. -/
theorem wMoveToBack_spec {w : World K V} (hw : WInv w) (i : Nat) (k : K) :
    WInv (wMoveToBack w i k).1 ∧
    (∀ j, j ≠ i → obsOf (wMoveToBack w i k).1 j = obsOf w j) ∧
    (∀ e, (wMoveToBack w i k).2 = some e →
      (wMoveToBack w i k).1.insts = w.insts ∧
      obsOf (wMoveToBack w i k).1 i = obsOf w i) ∧
    ((wMoveToBack w i k).2 = none →
      ∃ cid', (wMoveToBack w i k).1.insts.get? i = some ⟨some cid', false⟩) := by
  unfold wMoveToBack
  by_cases hemp : cellIsEmpty w i
  · rw [if_pos hemp]
    refine ⟨hw, fun j _ => rfl, fun e _ => ⟨rfl, rfl⟩, ?_⟩
    intro h0
    simp at h0
  · have hne : cellIsEmpty w i = false := by simpa using hemp
    rw [if_neg hemp]
    obtain ⟨cont, _, h1, h2, h3, h4⟩ := wGuardedOp_spec hw hne
      (fun c => match lookupB c.iterator_list_map k with
        | none => .error .keyNotFound
        | some _ => .ok (moveToBackC c k))
      (fun cont hInv c' hc' => by
        rcases hl : lookupB cont.iterator_list_map k with _ | b
        · simp only [hl] at hc'
          cases hc'
        · simp only [hl] at hc'
          cases hc'
          exact inv_moveToBackC hInv k)
    rcases hl : lookupB cont.iterator_list_map k with _ | b
    · obtain ⟨hsome, hinsts, hobs⟩ := h3 Err.keyNotFound (by rw [hl])
      refine ⟨h1, h2, ?_, ?_⟩
      · intro e _
        exact ⟨hinsts, hobs⟩
      · intro h0
        rw [hsome] at h0
        cases h0
    · obtain ⟨hnone, cid', hgi, _, _⟩ := h4 _ (by rw [hl])
      refine ⟨h1, h2, ?_, fun _ => ⟨cid', hgi⟩⟩
      intro e he
      rw [hnone] at he
      cases he

/-- `clear()` preserves the invariant and the others' observations;
with a non-null pointer it leaves the caller unpinned; with a null
pointer it returns early and changes nothing — in particular a pinned
moved-from instance stays pinned. -/
theorem wClear_spec {w : World K V} (hw : WInv w) (i : Nat) :
    WInv (wClear w i) ∧
    (∀ j, j ≠ i → obsOf (wClear w i) j = obsOf w j) ∧
    (∀ inst cid, w.insts.get? i = some inst → inst.ptr = some cid →
      ∃ cid', (wClear w i).insts.get? i = some ⟨some cid', false⟩) ∧
    (∀ inst, w.insts.get? i = some inst → inst.ptr = none →
      wClear w i = w) := by
  unfold wClear
  rcases hi : w.insts.get? i with _ | inst
  · simp only [hi]
    refine ⟨hw, fun j _ => trivial, ?_, ?_⟩
    · intro inst0 cid h0
      simp at h0
    · intro inst0 h0
      simp at h0
  · simp only [hi]
    rcases hptr : inst.ptr with _ | cid
    · simp only [hptr]
      refine ⟨hw, fun j _ => trivial, ?_, fun _ _ _ => trivial⟩
      intro inst0 cid h0 hp0
      cases h0
      rw [hptr] at hp0
      cases hp0
    · simp only [hptr]
      obtain ⟨cont, hcont⟩ := cell_of_ptr hw hi hptr
      obtain ⟨h1, h2, _, h4⟩ := runGuarded_spec hw hi hptr hcont
        (fun c => .ok (clearC c))
        (fun c' hc' => by
          cases hc'
          exact inv_clearC (hw.cells cont (List.get?_mem hcont)))
      obtain ⟨_, cid', hgi, _, _⟩ := h4 _ rfl
      refine ⟨h1, h2, fun _ _ _ _ => ⟨cid', hgi⟩, ?_⟩
      intro inst0 h0 hp0
      cases h0
      rw [hptr] at hp0
      cases hp0

/-- A mutable accessor on a non-empty instance: the invariant is
preserved, every observation (the caller's included) is unchanged, and
when a reference is returned the caller is pinned on a cell no other
instance shares; `front()`/`back()` (no key check) always return one. -/
theorem wPinAccessor_spec {w : World K V} (hw : WInv w) {i : Nat}
    (hne : cellIsEmpty w i = false) (kc : Option K) :
    WInv (wPinAccessor w i kc).1 ∧
    (∀ j, obsOf (wPinAccessor w i kc).1 j = obsOf w j) ∧
    (∀ cid', (wPinAccessor w i kc).2 = some cid' →
      (wPinAccessor w i kc).1.insts.get? i = some ⟨some cid', true⟩ ∧
      (∀ j jj, j ≠ i → (wPinAccessor w i kc).1.insts.get? j = some jj →
        jj.ptr ≠ some cid')) ∧
    (kc = none → ∃ cid', (wPinAccessor w i kc).2 = some cid') := by
  obtain ⟨inst, cid, cont, hi, hptr, hc, hempc⟩ := not_cellIsEmpty_spec hne
  obtain ⟨cid', hinsts, hcid', hold, hlt, hle, hexcl, hheap⟩ :=
    aboutToModifyW_spec hw true hi hptr hc
  have hilt : i < w.insts.length := (List.get?_eq_some.1 hi).1
  have hi1 : (aboutToModifyW w i true).insts.get? i =
      some ⟨some cid', true⟩ := by
    rw [hinsts, List.get?_set_eq, hi]
    rfl
  have hj1 : ∀ j, j ≠ i → (aboutToModifyW w i true).insts.get? j =
      w.insts.get? j := by
    intro j hj
    rw [hinsts]
    exact List.get?_set_ne _ _ (Ne.symm hj)
  have hWI1 : WInv (aboutToModifyW w i true) := by
    refine ⟨?_, ?_, ?_⟩
    · intro inst' hmem cd hptr'
      rw [hinsts] at hmem
      rcases List.mem_or_eq_of_mem_set hmem with hmem | heq
      · calc cd < w.heap.length := hw.ptrOk inst' hmem cd hptr'
          _ ≤ _ := hle
      · rw [heq] at hptr'
        simp only at hptr'
        cases hptr'
        exact hlt
    · intro cont' hmem
      rcases hheap with hh | hh
      · rw [hh] at hmem
        exact hw.cells cont' hmem
      · rw [hh] at hmem
        rcases List.mem_append.1 hmem with hmem | hmem
        · exact hw.cells cont' hmem
        · rw [List.mem_singleton.1 hmem]
          exact hw.cells cont (List.get?_mem hc)
    · intro a b aa bb cd hne2 ha hb hpin hptr'
      by_cases ha1 : a = i
      · rw [ha1, hi1] at ha
        cases ha
        simp only at hptr'
        cases hptr'
        rw [hj1 b (fun h => hne2 (ha1.trans h.symm) )] at hb
        exact hexcl b bb (fun h => hne2 (ha1.trans h.symm)) hb
      · rw [hj1 a ha1] at ha
        by_cases hb1 : b = i
        · rw [hb1, hi1] at hb
          cases hb
          simp only [ne_eq, Option.some.injEq]
          intro hcd
          exact hexcl a aa ha1 ha (by rw [hptr', hcd])
        · rw [hj1 b hb1] at hb
          exact hw.pinned a b aa bb cd hne2 ha hb hpin hptr'
  have hobs1 : ∀ j, obsOf (aboutToModifyW w i true) j = obsOf w j := by
    intro j
    by_cases hj : j = i
    · subst hj
      have hL : obsOf (aboutToModifyW w j true) j =
          some (toPairs cont, keysC cont) := by
        unfold obsOf
        rw [hi1]
        show Option.map (fun c => (toPairs c, keysC c))
          ((aboutToModifyW w j true).heap.get? cid') = _
        rw [hcid']
        rfl
      have hR : obsOf w j = some (toPairs cont, keysC cont) := by
        unfold obsOf
        rw [hi]
        show (match inst.ptr with
            | none => some ([], [])
            | some cd =>
              Option.map (fun c => (toPairs c, keysC c)) (w.heap.get? cd)) = _
        rw [hptr]
        show Option.map (fun c => (toPairs c, keysC c)) (w.heap.get? cid) = _
        rw [hc]
        rfl
      rw [hL, hR]
    · apply obsOf_eq
      · exact hj1 j hj
      · intro jj cd hjj hjp
        exact hold cd (hw.ptrOk jj (List.get?_mem hjj) cd hjp)
  have hkey : wPinAccessor w i kc =
      match kc with
      | none => (aboutToModifyW w i true, some cid')
      | some k =>
        match lookupB cont.iterator_list_map k with
        | some _ => (aboutToModifyW w i true, some cid')
        | none => (setInst (aboutToModifyW w i true) i inst, none) := by
    unfold wPinAccessor
    rw [if_neg (by rw [hne]; intro h0; cases h0)]
    simp only [hi, hi1, hcid']
  rcases kc with _ | k
  · simp only at hkey
    rw [hkey]
    refine ⟨hWI1, hobs1, ?_, fun _ => ⟨cid', rfl⟩⟩
    intro cid0 h0
    cases h0
    refine ⟨hi1, ?_⟩
    intro j jj hj hjj
    rw [hj1 j hj] at hjj
    exact hexcl j jj hj hjj
  · simp only at hkey
    rcases hl : lookupB cont.iterator_list_map k with _ | b
    · rw [hl] at hkey
      rw [hkey]
      have hrinsts : (setInst (aboutToModifyW w i true) i inst).insts =
          w.insts := by
        show (aboutToModifyW w i true).insts.set i inst = w.insts
        rw [hinsts, List.set_set]
        exact set_get?_self hi
      refine ⟨?_, ?_, ?_, ?_⟩
      · refine ⟨?_, ?_, ?_⟩
        · intro inst' hmem cd hptr'
          rw [hrinsts] at hmem
          calc cd < w.heap.length := hw.ptrOk inst' hmem cd hptr'
            _ ≤ _ := hle
        · intro cont' hmem
          exact hWI1.cells cont' hmem
        · intro a b aa bb cd hne2 ha hb hpin hptr'
          rw [hrinsts] at ha hb
          exact hw.pinned a b aa bb cd hne2 ha hb hpin hptr'
      · intro j
        apply obsOf_eq
        · rw [hrinsts]
        · intro jj cd hjj hjp
          exact hold cd (hw.ptrOk jj (List.get?_mem hjj) cd hjp)
      · intro cid0 h0
        cases h0
      · intro h0
        cases h0
    · rw [hl] at hkey
      rw [hkey]
      refine ⟨hWI1, hobs1, ?_, ?_⟩
      · intro cid0 h0
        cases h0
        refine ⟨hi1, ?_⟩
        intro j jj hj hjj
        rw [hj1 j hj] at hjj
        exact hexcl j jj hj hjj
      · intro h0
        cases h0

/-- Writing a value in place through a reference into a cell: the world
invariant is preserved, and the observation of every instance not
pointing at that cell is unchanged. -/
theorem wWriteFront_spec {w : World K V} (hw : WInv w) (cid : Nat) (v : V) :
    WInv (wWriteFront w cid v) ∧
    (∀ j, (∀ jj, w.insts.get? j = some jj → jj.ptr ≠ some cid) →
      obsOf (wWriteFront w cid v) j = obsOf w j) := by
  unfold wWriteFront
  rcases hc : w.heap.get? cid with _ | cont
  · simp only [hc]
    exact ⟨hw, fun j _ => trivial⟩
  · simp only [hc]
    refine ⟨⟨?_, ?_, ?_⟩, ?_⟩
    · intro inst' hmem cd hptr'
      show cd < (w.heap.set cid (writeFrontC cont v)).length
      rw [List.length_set]
      exact hw.ptrOk inst' hmem cd hptr'
    · intro cont' hmem
      rcases List.mem_or_eq_of_mem_set hmem with hmem | heq
      · exact hw.cells cont' hmem
      · rw [heq]
        exact inv_writeFrontC (hw.cells cont (List.get?_mem hc)) v
    · exact hw.pinned
    · intro j hj
      apply obsOf_eq
      · rfl
      · intro jj cd hjj hjp
        show (w.heap.set cid (writeFrontC cont v)).get? cd = w.heap.get? cd
        have : cd ≠ cid := fun h0 => hj jj hjj (by rw [hjp, h0])
        exact List.get?_set_ne _ _ (Ne.symm this)

/-! ### Claim C7: error conditions -/

theorem sizeC_eq_zero_iff {c : Container K V} :
    sizeC c = 0 ↔ c.pair_list = [] := by
  unfold sizeC
  exact List.length_eq_zero

theorem keyCond_iff {c : Container K V} (h : Inv c) {k : K} :
    (sizeC c = 0 ∨ countC c k = 0) ↔ keyEntries c k = [] := by
  constructor
  · intro hor
    rcases hor with hs | hc
    · have hnil : c.pair_list = [] := sizeC_eq_zero_iff.1 hs
      unfold keyEntries
      rw [hnil]
      rfl
    · rw [h.count_char] at hc
      exact List.length_eq_zero.1 hc
  · intro hke
    right
    rw [h.count_char, hke]
    rfl

theorem lookupB_none_of_keyEntries_nil {c : Container K V} (h : Inv c)
    {k : K} (hke : keyEntries c k = []) :
    lookupB c.iterator_list_map k = none := by
  rw [h.lookup_char, hke]
  simp

/-- All four key-taking operations raise "Key not found" when the key has
no entries (lines 94-105, 118-130, 180-189, 212-221). -/
theorem keyOps_err {c : Container K V} (h : Inv c) {k : K}
    (hke : keyEntries c k = []) :
    popKeyE c k = .error .keyNotFound ∧
    moveToBackE c k = .error .keyNotFound ∧
    firstE c k = .error .keyNotFound ∧
    lastE c k = .error .keyNotFound := by
  by_cases hemp : c.pair_list.isEmpty = true
  · exact ⟨by unfold popKeyE; rw [if_pos hemp],
      by unfold moveToBackE; rw [if_pos hemp],
      by unfold firstE; rw [if_pos hemp],
      by unfold lastE; rw [if_pos hemp]⟩
  · have hlb := lookupB_none_of_keyEntries_nil h hke
    exact ⟨by unfold popKeyE; rw [if_neg hemp, hlb],
      by unfold moveToBackE; rw [if_neg hemp, hlb],
      by unfold firstE; rw [if_neg hemp, hlb],
      by unfold lastE; rw [if_neg hemp, hlb]⟩

/-- C7 (lines 74-77, 139-141, 159-161: `pop`/`front`/`back` check for an
empty queue; lines 94-105, 118-130, 180-189, 212-221: the key-taking
operations check emptiness and then the key): `pop()`, `front()` and
`back()` raise `EmptyCollection` exactly when the queue is empty and raise
nothing else; `pop(k)`, `move_to_back(k)`, `first(k)` and `last(k)` raise
`KeyNotFound` exactly when the queue is empty or the key has no entries
and raise nothing else; and at the world level every throwing operation
leaves the throwing instance observably unchanged (the `copy_guard_t`
rollback). -/
theorem C7_error_conditions {c : Container K V} (h : Inv c) (k : K) :
    ((popE c = .error .emptyCollection ↔ sizeC c = 0) ∧
     (frontE c = .error .emptyCollection ↔ sizeC c = 0) ∧
     (backE c = .error .emptyCollection ↔ sizeC c = 0) ∧
     (∀ e, popE c = .error e → e = .emptyCollection) ∧
     (∀ e, frontE c = .error e → e = .emptyCollection) ∧
     (∀ e, backE c = .error e → e = .emptyCollection)) ∧
    ((popKeyE c k = .error .keyNotFound ↔ (sizeC c = 0 ∨ countC c k = 0)) ∧
     (moveToBackE c k = .error .keyNotFound ↔
       (sizeC c = 0 ∨ countC c k = 0)) ∧
     (firstE c k = .error .keyNotFound ↔ (sizeC c = 0 ∨ countC c k = 0)) ∧
     (lastE c k = .error .keyNotFound ↔ (sizeC c = 0 ∨ countC c k = 0)) ∧
     (∀ e, popKeyE c k = .error e → e = .keyNotFound) ∧
     (∀ e, moveToBackE c k = .error e → e = .keyNotFound) ∧
     (∀ e, firstE c k = .error e → e = .keyNotFound) ∧
     (∀ e, lastE c k = .error e → e = .keyNotFound)) ∧
    (∀ (w : World K V), WInv w → ∀ i,
      (∀ e, (wPop w i).2 = some e → obsOf (wPop w i).1 i = obsOf w i) ∧
      (∀ e, (wPopKey w i k).2 = some e →
        (wPopKey w i k).1.insts = w.insts ∧
        obsOf (wPopKey w i k).1 i = obsOf w i) ∧
      (∀ e, (wMoveToBack w i k).2 = some e →
        (wMoveToBack w i k).1.insts = w.insts ∧
        obsOf (wMoveToBack w i k).1 i = obsOf w i)) := by
  refine ⟨?_, ?_, ?_⟩
  · rcases hl : c.pair_list with _ | ⟨x, xs⟩
    · have hsz : sizeC c = 0 := sizeC_eq_zero_iff.2 hl
      have hpop : popE c = .error .emptyCollection := by
        unfold popE
        rw [hl]
        rfl
      have hfr : frontE c = .error .emptyCollection := by
        unfold frontE
        rw [hl]
      have hbk : backE c = .error .emptyCollection := by
        unfold backE
        rw [hl]
        rfl
      refine ⟨by simp [hpop, hsz], by simp [hfr, hsz], by simp [hbk, hsz],
        ?_, ?_, ?_⟩
      · intro e he
        rw [hpop] at he
        exact (Except.error.inj he).symm
      · intro e he
        rw [hfr] at he
        exact (Except.error.inj he).symm
      · intro e he
        rw [hbk] at he
        exact (Except.error.inj he).symm
    · have hsz : sizeC c ≠ 0 := by
        intro h0
        rw [sizeC_eq_zero_iff.1 h0] at hl
        cases hl
      have hnemp : ¬ c.pair_list.isEmpty = true := by
        rw [hl]
        simp
      have hpop : popE c = .ok (popC c) := by
        unfold popE
        rw [if_neg hnemp]
      have hfr : frontE c = .ok (x.key, x.val) := by
        unfold frontE
        rw [hl]
      have hne : c.pair_list ≠ [] := by
        rw [hl]
        exact List.cons_ne_nil x xs
      have hbk : backE c =
          .ok ((c.pair_list.getLast hne).key, (c.pair_list.getLast hne).val) := by
        unfold backE
        rw [List.getLast?_eq_getLast _ hne]
      refine ⟨by simp [hpop, hsz], by simp [hfr, hsz], by simp [hbk, hsz],
        ?_, ?_, ?_⟩
      · intro e he
        rw [hpop] at he
        cases he
      · intro e he
        rw [hfr] at he
        cases he
      · intro e he
        rw [hbk] at he
        cases he
  · rcases hke : keyEntries c k with _ | ⟨e, es⟩
    · have hcond : sizeC c = 0 ∨ countC c k = 0 := (keyCond_iff h).2 hke
      obtain ⟨h1, h2, h3, h4⟩ := keyOps_err h hke
      refine ⟨by simp [h1, hcond], by simp [h2, hcond], by simp [h3, hcond],
        by simp [h4, hcond], ?_, ?_, ?_, ?_⟩
      · intro e he
        rw [h1] at he
        exact (Except.error.inj he).symm
      · intro e he
        rw [h2] at he
        exact (Except.error.inj he).symm
      · intro e he
        rw [h3] at he
        exact (Except.error.inj he).symm
      · intro e he
        rw [h4] at he
        exact (Except.error.inj he).symm
    · have hcond : ¬ (sizeC c = 0 ∨ countC c k = 0) := by
        intro hor
        have h0 := (keyCond_iff h).1 hor
        rw [hke] at h0
        cases h0
      have h1 := popKeyE_ok h hke
      have h2 := moveToBackE_ok h (by rw [hke]; exact List.cons_ne_nil e es)
      have h3 := firstE_ok h hke
      have h4 := lastE_ok h hke
      refine ⟨by simp [h1, hcond], by simp [h2, hcond], by simp [h3, hcond],
        by simp [h4, hcond], ?_, ?_, ?_, ?_⟩
      · intro e0 he
        rw [h1] at he
        cases he
      · intro e0 he
        rw [h2] at he
        cases he
      · intro e0 he
        rw [h3] at he
        cases he
      · intro e0 he
        rw [h4] at he
        cases he
  · intro w hw i
    exact ⟨fun e => (wPop_spec hw i).2.2.2 e,
      fun e => (wPopKey_spec hw i k).2.2.1 e,
      fun e => (wMoveToBack_spec hw i k).2.2.1 e⟩

theorem C7_error_conditions_witness :
    popKeyE (pushC 1 10 (emptyC : Container Nat Nat)) 5 =
      .error .keyNotFound ↔
    (sizeC (pushC 1 10 (emptyC : Container Nat Nat)) = 0 ∨
     countC (pushC 1 10 (emptyC : Container Nat Nat)) 5 = 0) :=
  (C7_error_conditions
    (by decide : Inv (pushC 1 10 (emptyC : Container Nat Nat))) 5).2.1.1


/-! ### Reachable worlds: the public interface as a step relation -/

/-- The empty world: no instance has been constructed yet. -/
def w0 : World K V := ⟨[], []⟩

theorem wPinAccessor_empty {w : World K V} {i : Nat} {kc : Option K}
    (h : cellIsEmpty w i = true) : wPinAccessor w i kc = (w, none) := by
  unfold wPinAccessor
  rw [if_pos h]

/-- One step of the public interface at the world level: construction,
copying, moving, assignment, the five structural mutations, a mutable
accessor, and writing through a value reference. -/
inductive WStep : World K V → World K V → Prop where
  | default (w : World K V) : WStep w (wDefault w)
  | copy (w w' : World K V) (src : Nat) (h : wCopy w src = some w') :
      WStep w w'
  | move (w : World K V) (src : Nat) : WStep w (wMove w src)
  | assign (w w' : World K V) (dst src : Nat)
      (h : wAssign w dst src = some w') : WStep w w'
  | push (w : World K V) (i : Nat) (k : K) (v : V) : WStep w (wPush w i k v)
  | pop (w : World K V) (i : Nat) : WStep w (wPop w i).1
  | popKey (w : World K V) (i : Nat) (k : K) : WStep w (wPopKey w i k).1
  | moveBack (w : World K V) (i : Nat) (k : K) :
      WStep w (wMoveToBack w i k).1
  | clear (w : World K V) (i : Nat) : WStep w (wClear w i)
  | pin (w : World K V) (i : Nat) (kc : Option K) :
      WStep w (wPinAccessor w i kc).1
  | write (w : World K V) (cid : Nat) (v : V) : WStep w (wWriteFront w cid v)

/-- A world reachable from another through the public interface. -/
def Reaches (w w' : World K V) : Prop := Relation.ReflTransGen WStep w w'

theorem wstep_winv {w w' : World K V} (hw : WInv w) (h : WStep w w') :
    WInv w' := by
  cases h with
  | default => exact (wDefault_spec hw).1
  | copy u' s hc => exact (wCopy_spec hw hc).1
  | move s => exact (wMove_spec hw s).1
  | assign u' d s ha => exact (wAssign_spec hw ha).1
  | push i k v => exact (wPush_spec hw i k v).1
  | pop i => exact (wPop_spec hw i).1
  | popKey i k => exact (wPopKey_spec hw i k).1
  | moveBack i k => exact (wMoveToBack_spec hw i k).1
  | clear i => exact (wClear_spec hw i).1
  | pin i kc =>
    by_cases hemp : cellIsEmpty w i = true
    · rw [wPinAccessor_empty hemp]
      exact hw
    · exact (wPinAccessor_spec hw (by simpa using hemp) kc).1
  | write cid v => exact (wWriteFront_spec hw cid v).1

theorem winv_w0 : WInv (w0 : World K V) := by
  refine ⟨?_, ?_, ?_⟩
  · intro inst hmem
    simp [w0] at hmem
  · intro cont hmem
    simp [w0] at hmem
  · intro i j ii jj cid hij hi
    simp [w0] at hi

theorem reaches_winv {w w' : World K V} (hw : WInv w) (h : Reaches w w') :
    WInv w' := by
  induction h with
  | refl => exact hw
  | tail hpre hstep ih => exact wstep_winv ih hstep

/-! ### Claim C5: copy independence -/

/-- C5 (lines 22-28, 358-372): a copy observes the same contents as
every pre-existing instance it was taken from, and afterwards any
structural mutation or pinned in-place write performed through one
instance leaves every other instance's observation (its queue and key
order, hence its `size()` and every `count(k)`) unchanged, in both
directions. -/
theorem C5_copy_independence {w w' : World K V} (hw : WInv w) {src : Nat}
    (hc : wCopy w src = some w') :
    WInv w' ∧
    (∀ j, j < w.insts.length → obsOf w' j = obsOf w j) ∧
    (∀ i j, i ≠ j →
      (∀ k v, obsOf (wPush w' i k v) j = obsOf w' j) ∧
      (obsOf (wPop w' i).1 j = obsOf w' j) ∧
      (∀ k, obsOf (wPopKey w' i k).1 j = obsOf w' j) ∧
      (∀ k, obsOf (wMoveToBack w' i k).1 j = obsOf w' j) ∧
      (obsOf (wClear w' i) j = obsOf w' j)) ∧
    (∀ i kc cid, (wPinAccessor w' i kc).2 = some cid →
      ∀ v j, j ≠ i →
        obsOf (wWriteFront (wPinAccessor w' i kc).1 cid v) j =
          obsOf w' j) := by
  have hw' : WInv w' := (wCopy_spec hw hc).1
  refine ⟨hw', (wCopy_spec hw hc).2.1, ?_, ?_⟩
  · intro i j hij
    exact ⟨fun k v => (wPush_spec hw' i k v).2.1 j (Ne.symm hij),
      (wPop_spec hw' i).2.1 j (Ne.symm hij),
      fun k => (wPopKey_spec hw' i k).2.1 j (Ne.symm hij),
      fun k => (wMoveToBack_spec hw' i k).2.1 j (Ne.symm hij),
      (wClear_spec hw' i).2.1 j (Ne.symm hij)⟩
  · intro i kc cid hcid v j hji
    by_cases hemp : cellIsEmpty w' i = true
    · rw [wPinAccessor_empty hemp] at hcid
      cases hcid
    · have hne : cellIsEmpty w' i = false := by simpa using hemp
      obtain ⟨hw1, hobs, hpin, _⟩ := wPinAccessor_spec hw' hne kc
      obtain ⟨hi1, hexcl⟩ := hpin cid hcid
      have hwf := wWriteFront_spec hw1 cid v
      have hobsj : obsOf (wWriteFront (wPinAccessor w' i kc).1 cid v) j =
          obsOf (wPinAccessor w' i kc).1 j :=
        hwf.2 j (fun jj hjj => hexcl j jj hji hjj)
      rw [hobsj, hobs j]

/-- The world after default-constructing instance 0, `push(1, 5)`, and
copy-constructing instance 1 from it: the two instances share one cell. -/
def wShared : World Nat Nat :=
  { heap := [pushC 1 5 emptyC]
    insts := [⟨some 0, false⟩, ⟨some 0, false⟩] }

theorem C5_copy_independence_witness :
    obsOf (wClear wShared 1) 0 = obsOf wShared 0 :=
  ((C5_copy_independence
    (wstep_winv (wstep_winv winv_w0 (WStep.default w0))
      (WStep.push (wDefault w0) 0 1 5))
    (rfl : wCopy (wPush (wDefault (w0 : World Nat Nat)) 0 1 5) 0 =
      some wShared)).2.2.1 1 0 (by decide)).2.2.2.2

/-! ### Claims C6 and C10: the pinning protocol and the moved-from copy -/

/-- The world reached by: default-construct instance 0; `push(1, 5)`;
call the mutable `front()` (which pins instance 0); move-construct
instance 1 from instance 0.  Instance 0 is left with a null pointer and
its pinned flag still set. -/
def wBad : World Nat Nat :=
  wMove ((wPinAccessor (wPush (wDefault w0) 0 1 5) 0 none).1) 0

theorem reaches_wBad : Reaches (w0 : World Nat Nat) wBad :=
  Relation.ReflTransGen.tail (Relation.ReflTransGen.tail
    (Relation.ReflTransGen.tail
      (Relation.ReflTransGen.tail Relation.ReflTransGen.refl
        (WStep.default w0))
      (WStep.push (wDefault w0) 0 1 5))
    (WStep.pin (wPush (wDefault w0) 0 1 5) 0 none))
    (WStep.move ((wPinAccessor (wPush (wDefault w0) 0 1 5) 0 none).1) 0)

/-- C6 counterexample: the claim says any subsequent structural mutation
(insert, remove, move, clear) of a pinned instance clears the pinned
flag — but `clear()` on a pinned instance whose pointer is null (a
moved-from instance, reachable through the public interface) returns
early at lines 275-277 and leaves the flag set. -/
theorem C6_pinning_protocol_cex :
    Reaches (w0 : World Nat Nat) wBad ∧
    wBad.insts.get? 0 = some ⟨none, true⟩ ∧
    wClear wBad 0 = wBad ∧
    (wClear wBad 0).insts.get? 0 = some ⟨none, true⟩ :=
  ⟨reaches_wBad, by decide, by decide, by decide⟩

/-- C6 (amended): the pinning protocol as implemented.  I4 holds (a
pinned instance shares its cell with no other instance — part of `WInv`,
preserved by every step); a mutable accessor that returns a reference
pins the caller on a cell no other instance points at; copying or
assigning from a pinned instance deep-clones the cell and the new or
assigned instance is unpinned; writing in place through the reference
returned by a pinned accessor leaves every other instance's observation
unchanged; `push`, successful `pop`/`pop(k)`/`move_to_back(k)`, and
`clear` on a non-null pointer all clear the pinned flag — but `clear()`
on a null pointer returns early (lines 274-277) leaving the world, the
flag included, unchanged. -/
theorem C6_pinning_protocol {w : World K V} (hw : WInv w) :
    (∀ i j ii jj cid, i ≠ j → w.insts.get? i = some ii →
      w.insts.get? j = some jj → ii.unshareable = true →
      ii.ptr = some cid → jj.ptr ≠ some cid) ∧
    (∀ i kc cid, (wPinAccessor w i kc).2 = some cid →
      (wPinAccessor w i kc).1.insts.get? i = some ⟨some cid, true⟩ ∧
      (∀ j jj, j ≠ i → (wPinAccessor w i kc).1.insts.get? j = some jj →
        jj.ptr ≠ some cid)) ∧
    (∀ w' src inst, wCopy w src = some w' →
      w.insts.get? src = some inst → inst.unshareable = true →
      ∃ cid cont, inst.ptr = some cid ∧ w.heap.get? cid = some cont ∧
        w'.heap = w.heap ++ [cont] ∧
        w'.insts = w.insts ++ [⟨some w.heap.length, false⟩] ∧
        obsOf w' w.insts.length = some (toPairs cont, keysC cont)) ∧
    (∀ w' dst src inst, wAssign w dst src = some w' →
      w.insts.get? src = some inst → inst.unshareable = true →
      dst < w.insts.length →
      ∃ cid cont, inst.ptr = some cid ∧ w.heap.get? cid = some cont ∧
        w'.insts.get? dst = some ⟨some w.heap.length, false⟩ ∧
        obsOf w' dst = some (toPairs cont, keysC cont)) ∧
    (∀ i kc cid, (wPinAccessor w i kc).2 = some cid →
      ∀ v j, j ≠ i →
        obsOf (wWriteFront (wPinAccessor w i kc).1 cid v) j = obsOf w j) ∧
    (∀ i k v inst, w.insts.get? i = some inst →
      ∃ cid', (wPush w i k v).insts.get? i = some ⟨some cid', false⟩) ∧
    (∀ i, (wPop w i).2 = none →
      ∃ cid', (wPop w i).1.insts.get? i = some ⟨some cid', false⟩) ∧
    (∀ i k, (wPopKey w i k).2 = none →
      ∃ cid', (wPopKey w i k).1.insts.get? i = some ⟨some cid', false⟩) ∧
    (∀ i k, (wMoveToBack w i k).2 = none →
      ∃ cid',
        (wMoveToBack w i k).1.insts.get? i = some ⟨some cid', false⟩) ∧
    (∀ i inst cid, w.insts.get? i = some inst → inst.ptr = some cid →
      ∃ cid', (wClear w i).insts.get? i = some ⟨some cid', false⟩) ∧
    (∀ i inst, w.insts.get? i = some inst → inst.ptr = none →
      wClear w i = w) := by
  refine ⟨hw.pinned, ?_, ?_, ?_, ?_, ?_, ?_, ?_, ?_, ?_, ?_⟩
  · intro i kc cid hcid
    by_cases hemp : cellIsEmpty w i = true
    · rw [wPinAccessor_empty hemp] at hcid
      cases hcid
    · exact (wPinAccessor_spec hw (by simpa using hemp) kc).2.2.1 cid hcid
  · intro w' src inst hc hsrc hpin
    exact (wCopy_spec hw hc).2.2 inst hsrc hpin
  · intro w' dst src inst ha hsrc hpin hdst
    exact (wAssign_spec hw ha).2.2.2 inst hsrc hpin hdst
  · intro i kc cid hcid v j hji
    by_cases hemp : cellIsEmpty w i = true
    · rw [wPinAccessor_empty hemp] at hcid
      cases hcid
    · have hne : cellIsEmpty w i = false := by simpa using hemp
      obtain ⟨hw1, hobs, hpin, _⟩ := wPinAccessor_spec hw hne kc
      obtain ⟨hi1, hexcl⟩ := hpin cid hcid
      have hwf := wWriteFront_spec hw1 cid v
      have hobsj : obsOf (wWriteFront (wPinAccessor w i kc).1 cid v) j =
          obsOf (wPinAccessor w i kc).1 j :=
        hwf.2 j (fun jj hjj => hexcl j jj hji hjj)
      rw [hobsj, hobs j]
  · intro i k v inst hi
    exact (wPush_spec hw i k v).2.2 inst hi
  · intro i
    exact (wPop_spec hw i).2.2.1
  · intro i k
    exact (wPopKey_spec hw i k).2.2.2
  · intro i k
    exact (wMoveToBack_spec hw i k).2.2.2
  · intro i inst cid hi hptr
    exact (wClear_spec hw i).2.2.1 inst cid hi hptr
  · intro i inst hi hptr
    exact (wClear_spec hw i).2.2.2 inst hi hptr

theorem C6_pinning_protocol_witness :
    wClear (wMove (wDefault (w0 : World Nat Nat)) 0) 0 =
      wMove (wDefault (w0 : World Nat Nat)) 0 :=
  (C6_pinning_protocol (wstep_winv (wstep_winv winv_w0 (WStep.default w0))
    (WStep.move (wDefault w0) 0))).2.2.2.2.2.2.2.2.2.2
    0 ⟨none, false⟩ (by decide) rfl

/-- C10 (refuted): copy construction is not well-defined for every live
instance.  The copy constructor (lines 22-28) dereferences
`*other.dataPtr` when the source is pinned; a pinned source whose
pointer is null — obtained by pinning through the mutable `front()` and
then move-constructing from the instance — is reachable through the
public interface, and copying from it dereferences a null pointer
(`wCopy` returns `none` exactly on that dereference, every other
operation null-checks `dataPtr`). -/
theorem C10_copy_null_deref :
    Reaches (w0 : World Nat Nat) wBad ∧
    wBad.insts.get? 0 = some ⟨none, true⟩ ∧
    wCopy wBad 0 = none :=
  ⟨reaches_wBad, by decide, by decide⟩


end Kvfifo

